import Mathlib

/-!
Verification of the md-tools reference/footnote conversion core.

The Go sources are embedded shallowly:
* document content is a sequence of characters (`List Char`; the inputs of
  interest are ASCII, so characters coincide with source bytes),
* machine integers are `Int` (Go `int` arithmetic on in-memory strings never
  overflows for any realizable document),
* code that can panic (out-of-range slice indexing) is embedded twice: a
  checked variant returning `Option` (`none` = runtime panic) and a total
  variant used downstream, with a proved agreement lemma.

The external collaborators (the goldmark parser, the html-to-markdown
converter) are not re-implemented: transforms are parameterized by the data
those collaborators supply (occurrence lists, definitions, a conversion
function), exactly at the interface boundary the spec describes in §2.
-/

namespace MdTools

/-- Character-list form of a string literal. -/
def chars (s : String) : List Char := s.data

/-! ## Range Exclusion Compositor — `src/internal/markdown/ranges.go`

`ByteRange` embeds the Go struct `ByteRange{Start, End int}` (field `End`
is renamed `stop` because `end` is a Lean keyword). -/

structure ByteRange where
  start : Int
  stop : Int
deriving Repr, DecidableEq

/-- Checked Go string slicing `s[lo:hi]`: `none` models the runtime panic on
an out-of-range slice. -/
def goSlice (l : List Char) (lo hi : Int) : Option (List Char) :=
  if 0 ≤ lo ∧ lo ≤ hi ∧ hi ≤ (l.length : Int) then
    some ((l.take hi.toNat).drop lo.toNat)
  else none

/-- Clamp of `relStart` in `ExcludeRanges` (ranges.go lines 21, 30-32):
`relStart := r.Start - contentStart; if relStart < 0 { relStart = 0 }`. -/
def relStartOf (r : ByteRange) (contentStart : Int) : Int :=
  if r.start - contentStart < 0 then 0 else r.start - contentStart

/-- Clamp of `relEnd` in `ExcludeRanges` (ranges.go lines 22, 33-35):
`relEnd := r.End - contentStart; if relEnd > len(content) { relEnd = len }`. -/
def relEndOf (r : ByteRange) (contentStart len : Int) : Int :=
  if r.stop - contentStart > len then len else r.stop - contentStart

/-- Checked embedding of the loop body of `ExcludeRanges` (ranges.go lines
18-47). `pos` is the cursor into `content`; each iteration mirrors the Go
statements in order: the skip test, the two clamps, the guarded write of
`content[pos:relStart]`, and the unconditional `pos = relEnd`. The `[]` case
is the final `if pos < len(content) { write content[pos:] }`. -/
def excludeLoop (content : List Char) (contentStart : Int) :
    List ByteRange → Int → Option (List Char)
  | [], pos =>
      if pos < (content.length : Int) then goSlice content pos content.length
      else some []
  | r :: rs, pos =>
      if r.stop ≤ contentStart ∨ r.start ≥ contentStart + content.length then
        excludeLoop content contentStart rs pos
      else if relStartOf r contentStart > pos then
        match goSlice content pos (relStartOf r contentStart) with
        | none => none
        | some chunk =>
            (excludeLoop content contentStart rs
              (relEndOf r contentStart content.length)).map (chunk ++ ·)
      else excludeLoop content contentStart rs (relEndOf r contentStart content.length)

/-- Checked embedding of `ExcludeRanges` (ranges.go lines 14-50). -/
def ExcludeRanges (content : List Char) (contentStart : Int) (ranges : List ByteRange) :
    Option (List Char) :=
  excludeLoop content contentStart ranges 0

/-- Total variant of `excludeLoop`: same control flow, with Go slices replaced
by total `take`/`drop`. Agrees with the checked variant whenever that one does
not panic (`excludeLoop_eq_some`). -/
def excludeLoopT (content : List Char) (contentStart : Int) :
    List ByteRange → Int → List Char
  | [], pos =>
      if pos < (content.length : Int) then content.drop pos.toNat else []
  | r :: rs, pos =>
      if r.stop ≤ contentStart ∨ r.start ≥ contentStart + content.length then
        excludeLoopT content contentStart rs pos
      else if relStartOf r contentStart > pos then
        ((content.take (relStartOf r contentStart).toNat).drop pos.toNat) ++
          excludeLoopT content contentStart rs (relEndOf r contentStart content.length)
      else excludeLoopT content contentStart rs (relEndOf r contentStart content.length)

/-- Total embedding of `ExcludeRanges`, used by the transform embeddings. -/
def excludeRangesT (content : List Char) (contentStart : Int) (ranges : List ByteRange) :
    List Char :=
  excludeLoopT content contentStart ranges 0

/-- Specification-side predicate: absolute position `p` lies inside range `r`
(half-open). -/
def inRange (r : ByteRange) (p : Int) : Bool :=
  decide (r.start ≤ p ∧ p < r.stop)

/-- Specification-side predicate: `p` lies inside some range of `rs`. -/
def coveredBy (rs : List ByteRange) (p : Int) : Bool :=
  rs.any (fun r => inRange r p)

/-- Keep the characters of `l` whose absolute position (starting at `p`)
satisfies `keep`. -/
def filterPos : List Char → Int → (Int → Bool) → List Char
  | [], _, _ => []
  | c :: cx, p, keep =>
      if keep p then c :: filterPos cx (p + 1) keep else filterPos cx (p + 1) keep

/-- Well-formed exclusion list: each range is ordered and the list is sorted
ascending by start with pairwise non-overlapping ranges (spec §3: ByteRange is
half-open with `start ≤ end`; the list must be sorted and non-overlapping). -/
def RangesWF (rs : List ByteRange) : Prop :=
  (∀ r ∈ rs, r.start ≤ r.stop) ∧ List.Pairwise (fun a b => a.stop ≤ b.start) rs

theorem filterPos_congr {l : List Char} {p : Int} {k1 k2 : Int → Bool}
    (h : ∀ i : Nat, i < l.length → k1 (p + i) = k2 (p + i)) :
    filterPos l p k1 = filterPos l p k2 := by
  induction l generalizing p with
  | nil => rfl
  | cons c cx ih =>
      have h0 : k1 p = k2 p := by
        have := h 0 (by simp)
        simpa using this
      have htail : ∀ i : Nat, i < cx.length → k1 (p + 1 + i) = k2 (p + 1 + i) := by
        intro i hi
        have := h (i + 1) (by simpa using Nat.succ_lt_succ hi)
        have harith : p + ((i : Int) + 1) = p + 1 + i := by ring
        simpa [harith] using this
      simp only [filterPos, h0]
      rw [ih htail]

theorem filterPos_all_true {l : List Char} {p : Int} {keep : Int → Bool}
    (h : ∀ i : Nat, i < l.length → keep (p + i) = true) :
    filterPos l p keep = l := by
  induction l generalizing p with
  | nil => rfl
  | cons c cx ih =>
      have h0 : keep p = true := by simpa using h 0 (by simp)
      have htail : ∀ i : Nat, i < cx.length → keep (p + 1 + i) = true := by
        intro i hi
        have := h (i + 1) (by simpa using Nat.succ_lt_succ hi)
        have harith : p + ((i : Int) + 1) = p + 1 + i := by ring
        simpa [harith] using this
      simp only [filterPos, h0, if_true]
      rw [ih htail]

theorem filterPos_all_false {l : List Char} {p : Int} {keep : Int → Bool}
    (h : ∀ i : Nat, i < l.length → keep (p + i) = false) :
    filterPos l p keep = [] := by
  induction l generalizing p with
  | nil => rfl
  | cons c cx ih =>
      have h0 : keep p = false := by simpa using h 0 (by simp)
      have htail : ∀ i : Nat, i < cx.length → keep (p + 1 + i) = false := by
        intro i hi
        have := h (i + 1) (by simpa using Nat.succ_lt_succ hi)
        have harith : p + ((i : Int) + 1) = p + 1 + i := by ring
        simpa [harith] using this
      simp only [filterPos, h0, if_false]
      exact ih htail

theorem filterPos_append (a b : List Char) (p : Int) (keep : Int → Bool) :
    filterPos (a ++ b) p keep =
      filterPos a p keep ++ filterPos b (p + a.length) keep := by
  induction a generalizing p with
  | nil => simp [filterPos]
  | cons c cx ih =>
      have harith : p + ((c :: cx).length : Int) = p + 1 + (cx.length : Int) := by
        simp only [List.length_cons]
        push_cast
        ring
      have h1 : filterPos ((c :: cx) ++ b) p keep = filterPos (c :: (cx ++ b)) p keep := rfl
      rw [h1, harith]
      cases hk : keep p with
      | true =>
          simp only [filterPos, hk, if_true]
          rw [ih (p + 1)]
          rfl
      | false =>
          simp only [filterPos, hk]
          rw [ih (p + 1)]
          simp

theorem filterPos_sublist (l : List Char) (p : Int) (keep : Int → Bool) :
    List.Sublist (filterPos l p keep) l := by
  induction l generalizing p with
  | nil => simp [filterPos]
  | cons c cx ih =>
      by_cases h : keep p
      · simpa [filterPos, h] using List.Sublist.cons₂ c (ih (p + 1))
      · simpa [filterPos, h] using List.Sublist.cons c (ih (p + 1))

theorem inRange_eq_false {r : ByteRange} {p : Int}
    (h : ¬(r.start ≤ p ∧ p < r.stop)) : inRange r p = false := by
  simp [inRange, h]

theorem coveredBy_cons (r : ByteRange) (rs : List ByteRange) (p : Int) :
    coveredBy (r :: rs) p = (inRange r p || coveredBy rs p) := by
  simp [coveredBy]

theorem coveredBy_eq_false {rs : List ByteRange} {p : Int}
    (h : ∀ r ∈ rs, ¬(r.start ≤ p ∧ p < r.stop)) : coveredBy rs p = false := by
  simp only [coveredBy, List.any_eq_false]
  intro r hr
  simp [inRange, h r hr]

/-- The checked compositor never panics: with the cursor in bounds, it agrees
with the total variant (in particular it always returns `some`). -/
theorem excludeLoop_eq_some (content : List Char) (contentStart : Int)
    (rs : List ByteRange) :
    ∀ pos : Int, 0 ≤ pos → pos ≤ content.length →
      excludeLoop content contentStart rs pos =
        some (excludeLoopT content contentStart rs pos) := by
  induction rs with
  | nil =>
      intro pos h0 hlen
      by_cases h : pos < (content.length : Int)
      · have hcond : 0 ≤ pos ∧ pos ≤ (content.length : Int) ∧
            (content.length : Int) ≤ (content.length : Int) := ⟨h0, hlen, le_refl _⟩
        simp only [excludeLoop, excludeLoopT, h, if_true, goSlice, hcond, and_self, if_pos]
        congr 1
        have : (content.length : Int).toNat = content.length := by omega
        rw [this, List.take_length]
      · simp [excludeLoop, excludeLoopT, h]
  | cons r rs ih =>
      intro pos h0 hlen
      by_cases hskip : r.stop ≤ contentStart ∨ r.start ≥ contentStart + content.length
      · simp only [excludeLoop, excludeLoopT, if_pos hskip]
        exact ih pos h0 hlen
      · have hs1 : contentStart < r.stop := by
          by_contra hc
          exact hskip (Or.inl (by omega))
        have hs2 : r.start < contentStart + content.length := by
          by_contra hc
          exact hskip (Or.inr (by omega))
        have halen : relStartOf r contentStart ≤ (content.length : Int) := by
          unfold relStartOf
          split <;> omega
        have he0 : 0 ≤ relEndOf r contentStart content.length := by
          unfold relEndOf
          split <;> omega
        have helen : relEndOf r contentStart content.length ≤ (content.length : Int) := by
          unfold relEndOf
          split <;> omega
        by_cases hgt : relStartOf r contentStart > pos
        · have hslice : goSlice content pos (relStartOf r contentStart) =
              some ((content.take (relStartOf r contentStart).toNat).drop pos.toNat) := by
            simp [goSlice, h0, le_of_lt hgt, halen]
          simp only [excludeLoop, excludeLoopT, if_neg hskip, if_pos hgt, hslice]
          rw [ih (relEndOf r contentStart content.length) he0 helen]
          rfl
        · simp only [excludeLoop, excludeLoopT, if_neg hskip, if_neg hgt]
          exact ih (relEndOf r contentStart content.length) he0 helen

/-- Splitting a dropped suffix at a later index. -/
theorem drop_split (content : List Char) {m n : Nat} (h : m ≤ n) :
    content.drop m = (content.take n).drop m ++ content.drop n := by
  have h1 : (content.take n).drop m = (content.drop m).take (n - m) :=
    List.drop_take n m content
  have h2 : content.drop n = (content.drop m).drop (n - m) := by
    rw [List.drop_drop]
    congr 1
    omega
  rw [h1, h2, List.take_append_drop]

/-- Main compositor lemma: with a well-formed exclusion list whose ranges all
lie at or beyond the cursor, the loop keeps exactly the characters whose
absolute position is covered by no range. -/
theorem excludeLoopT_eq_filterPos (content : List Char) (contentStart : Int)
    (rs : List ByteRange) :
    ∀ pos : Int, 0 ≤ pos → pos ≤ content.length →
      (∀ r ∈ rs, r.start ≤ r.stop) →
      List.Pairwise (fun a b => a.stop ≤ b.start) rs →
      (∀ r ∈ rs, ¬(r.stop ≤ contentStart) → pos ≤ relStartOf r contentStart) →
      excludeLoopT content contentStart rs pos =
        filterPos (content.drop pos.toNat) (contentStart + pos)
          (fun p => !coveredBy rs p) := by
  induction rs with
  | nil =>
      intro pos h0 hlen _ _ _
      have hall : filterPos (content.drop pos.toNat) (contentStart + pos)
          (fun p => !coveredBy [] p) = content.drop pos.toNat :=
        filterPos_all_true (fun i _ => by simp [coveredBy])
      rw [hall]
      by_cases h : pos < (content.length : Int)
      · simp [excludeLoopT, h]
      · have hnil : content.drop pos.toNat = [] := List.drop_eq_nil_of_le (by omega)
        simp [excludeLoopT, h, hnil]
  | cons r rs ih =>
      intro pos h0 hlen hwf hpair hlow
      have hwr : r.start ≤ r.stop := hwf r (by simp)
      obtain ⟨hpr, hpairs⟩ := List.pairwise_cons.mp hpair
      have hwfs : ∀ x ∈ rs, x.start ≤ x.stop := fun x hx => hwf x (by simp [hx])
      by_cases hskip : r.stop ≤ contentStart ∨ r.start ≥ contentStart + content.length
      · have hcong : ∀ i : Nat, i < (content.drop pos.toNat).length →
            (!coveredBy (r :: rs) (contentStart + pos + i)) =
              (!coveredBy rs (contentStart + pos + i)) := by
          intro i hi
          rw [List.length_drop] at hi
          have hfalse : inRange r (contentStart + pos + i) = false := by
            apply inRange_eq_false
            rcases hskip with h | h <;> omega
          rw [coveredBy_cons, hfalse, Bool.false_or]
        have hlows : ∀ x ∈ rs, ¬(x.stop ≤ contentStart) → pos ≤ relStartOf x contentStart :=
          fun x hx => hlow x (by simp [hx])
        simp only [excludeLoopT, if_pos hskip]
        rw [ih pos h0 hlen hwfs hpairs hlows]
        exact (filterPos_congr hcong).symm
      · have hs1 : contentStart < r.stop := by
          by_contra hc
          exact hskip (Or.inl (by omega))
        have hs2 : r.start < contentStart + content.length := by
          by_contra hc
          exact hskip (Or.inr (by omega))
        have hlowr : pos ≤ relStartOf r contentStart := hlow r (by simp) (by omega)
        set a := relStartOf r contentStart with hadef
        set e := relEndOf r contentStart content.length with hedef
        have ha0 : 0 ≤ a := by
          rw [hadef]
          unfold relStartOf
          split <;> omega
        have halen : a ≤ (content.length : Int) := by
          rw [hadef]
          unfold relStartOf
          split <;> omega
        have hposa : pos ≤ a := hlowr
        have hage : r.start - contentStart ≤ a := by
          rw [hadef]
          unfold relStartOf
          split <;> omega
        have he0 : 0 ≤ e := by
          rw [hedef]
          unfold relEndOf
          split <;> omega
        have helen : e ≤ (content.length : Int) := by
          rw [hedef]
          unfold relEndOf
          split <;> omega
        have hermax : e ≤ r.stop - contentStart := by
          rw [hedef]
          unfold relEndOf
          split <;> omega
        have heval : e = r.stop - contentStart ∨
            (e = content.length ∧ r.stop - contentStart > content.length) := by
          rw [hedef]
          unfold relEndOf
          split
          · exact Or.inr ⟨rfl, by omega⟩
          · exact Or.inl rfl
        have haval : a = 0 ∨ a = r.start - contentStart := by
          rw [hadef]
          unfold relStartOf
          split
          · exact Or.inl rfl
          · exact Or.inr rfl
        have hae : a ≤ e := by
          rcases haval with h | h <;> rcases heval with h2 | ⟨h2, h3⟩ <;> omega
        have hposaN : pos.toNat ≤ a.toNat := by omega
        have haeN : a.toNat ≤ e.toNat := by omega
        have haNlen : a.toNat ≤ content.length := by omega
        have heNlen : e.toNat ≤ content.length := by omega
        have hsplitA := drop_split content hposaN
        have hsplitB := drop_split content haeN
        have hlenA : ((content.take a.toNat).drop pos.toNat).length =
            a.toNat - pos.toNat := by
          simp only [List.length_drop, List.length_take]
          omega
        have hlenB : ((content.take e.toNat).drop a.toNat).length =
            e.toNat - a.toNat := by
          simp only [List.length_drop, List.length_take]
          omega
        have harithA : contentStart + pos + ((a.toNat - pos.toNat : Nat) : Int) =
            contentStart + a := by omega
        have harithB : contentStart + a + ((e.toNat - a.toNat : Nat) : Int) =
            contentStart + e := by omega
        have hk1 : ∀ i : Nat, i < ((content.take a.toNat).drop pos.toNat).length →
            (!coveredBy (r :: rs) (contentStart + pos + i)) = true := by
          intro i hi
          rw [hlenA] at hi
          have hcov : coveredBy (r :: rs) (contentStart + pos + i) = false := by
            apply coveredBy_eq_false
            intro x hx
            rcases List.mem_cons.mp hx with hx | hx
            · subst hx
              rcases haval with h | h <;> omega
            · have hxs := hpr x hx
              rcases haval with h | h <;> omega
          simp [hcov]
        have hk2 : ∀ i : Nat, i < ((content.take e.toNat).drop a.toNat).length →
            (!coveredBy (r :: rs) (contentStart + a + i)) = false := by
          intro i hi
          rw [hlenB] at hi
          have hin : inRange r (contentStart + a + i) = true := by
            simp only [inRange, decide_eq_true_eq]
            constructor <;> omega
          rw [coveredBy_cons, hin, Bool.true_or]
          rfl
        have hk3 : ∀ i : Nat, i < (content.drop e.toNat).length →
            (!coveredBy (r :: rs) (contentStart + e + i)) =
              (!coveredBy rs (contentStart + e + i)) := by
          intro i hi
          rw [List.length_drop] at hi
          have hfalse : inRange r (contentStart + e + i) = false := by
            apply inRange_eq_false
            rcases heval with h | ⟨h, h2⟩ <;> omega
          rw [coveredBy_cons, hfalse, Bool.false_or]
        have hlows : ∀ x ∈ rs, ¬(x.stop ≤ contentStart) → e ≤ relStartOf x contentStart := by
          intro x hx _
          have hxs := hpr x hx
          unfold relStartOf
          split <;> omega
        have hC : filterPos (content.drop e.toNat) (contentStart + e)
            (fun p => !coveredBy (r :: rs) p) =
              excludeLoopT content contentStart rs e := by
          have hcg := @filterPos_congr (content.drop e.toNat) (contentStart + e)
            (fun p => !coveredBy (r :: rs) p) (fun p => !coveredBy rs p) hk3
          rw [hcg, ← ih e he0 helen hwfs hpairs hlows]
        have hR : filterPos (content.drop pos.toNat) (contentStart + pos)
            (fun p => !coveredBy (r :: rs) p) =
              ((content.take a.toNat).drop pos.toNat) ++
                excludeLoopT content contentStart rs e := by
          rw [hsplitA, filterPos_append, hlenA, harithA, filterPos_all_true hk1,
            hsplitB, filterPos_append, hlenB, harithB, filterPos_all_false hk2,
            List.nil_append, hC]
        rw [hR]
        simp only [excludeLoopT, if_neg hskip, ← hadef, ← hedef]
        by_cases hgt : a > pos
        · rw [if_pos hgt]
        · rw [if_neg hgt]
          have hAnil : (content.take a.toNat).drop pos.toNat = [] := by
            have hh : a.toNat = pos.toNat := by omega
            rw [hh, List.drop_take]
            simp
          rw [hAnil, List.nil_append]

theorem relStartOf_nonneg (r : ByteRange) (contentStart : Int) :
    0 ≤ relStartOf r contentStart := by
  unfold relStartOf
  split <;> omega

/-- The compositor is total: on every argument (arbitrary `contentStart`,
arbitrary range list) it returns `some`, i.e. every Go slice it takes is in
bounds. -/
theorem ExcludeRanges_eq_some (content : List Char) (contentStart : Int)
    (rs : List ByteRange) :
    ExcludeRanges content contentStart rs = some (excludeRangesT content contentStart rs) :=
  excludeLoop_eq_some content contentStart rs 0 (le_refl 0) (Int.natCast_nonneg _)

/-- Functional characterization: for a well-formed range list the compositor
keeps exactly the content characters whose absolute position is outside every
range. -/
theorem excludeRangesT_eq_filterPos (content : List Char) (contentStart : Int)
    (rs : List ByteRange) (hwf : RangesWF rs) :
    excludeRangesT content contentStart rs =
      filterPos content contentStart (fun p => !coveredBy rs p) := by
  have h := excludeLoopT_eq_filterPos content contentStart rs 0 (le_refl 0)
    (Int.natCast_nonneg _) hwf.1 hwf.2
    (fun r _ _ => relStartOf_nonneg r contentStart)
  simpa [excludeRangesT] using h

/-- C4: for every content string, every contentStart, and every range list
that is sorted ascending by start and pairwise non-overlapping (with each
range well-ordered, the ByteRange invariant of spec §3), `ExcludeRanges`
returns the content with exactly the in-window portions of those ranges
removed: a content byte at absolute position `p` survives iff `p` lies in no
given range; out-of-window ranges are ignored and partially overlapping
ranges are clamped, as the filter characterization subsumes. -/
theorem claim_c4_exclude_ranges_filter (content : List Char) (contentStart : Int)
    (rs : List ByteRange) (hwf : RangesWF rs) :
    ExcludeRanges content contentStart rs =
      some (filterPos content contentStart (fun p => !coveredBy rs p)) := by
  rw [ExcludeRanges_eq_some, excludeRangesT_eq_filterPos content contentStart rs hwf]

/-- Witness for C4 at a concrete input: window `[10,16)` over "abcdef", with a
left-overlapping, an interior, and a right-overlapping range; exactly the
covered positions disappear. -/
theorem claim_c4_exclude_ranges_filter_witness :
    RangesWF [⟨8,12⟩, ⟨13,14⟩, ⟨15,99⟩] ∧
      ExcludeRanges (chars "abcdef") 10 [⟨8,12⟩, ⟨13,14⟩, ⟨15,99⟩] =
        some (chars "ce") := by
  have hwf : RangesWF [⟨8,12⟩, ⟨13,14⟩, ⟨15,99⟩] := by
    constructor
    · decide
    · decide
  refine ⟨hwf, ?_⟩
  rw [claim_c4_exclude_ranges_filter (chars "abcdef") 10 [⟨8,12⟩, ⟨13,14⟩, ⟨15,99⟩] hwf]
  rfl

/-- C10 counterexample: with an unsorted range list, `ExcludeRanges` does not
panic but duplicates bytes — the result is not a subsequence of the input
(it is even longer than the input). -/
theorem claim_c10_counterexample :
    ExcludeRanges (chars "abcde") 0 [⟨3,5⟩, ⟨0,1⟩] = some (chars "abcbcde") ∧
      ¬ List.Sublist (chars "abcbcde") (chars "abcde") := by
  refine ⟨rfl, ?_⟩
  intro h
  exact absurd h.length_le (by decide)

/-- C10 (amended): `ExcludeRanges` is total and in-bounds for arbitrary
arguments (every slice it takes is valid, so it always returns a result), and
its output is a subsequence of the input content provided the range list is
sorted ascending and pairwise non-overlapping; for unsorted lists the
subsequence property can fail (see the counterexample). -/
theorem claim_c10_amended_safety (content : List Char) (contentStart : Int)
    (rs : List ByteRange) :
    (ExcludeRanges content contentStart rs).isSome = true ∧
      (RangesWF rs → List.Sublist (excludeRangesT content contentStart rs) content) := by
  constructor
  · rw [ExcludeRanges_eq_some]
    rfl
  · intro hwf
    rw [excludeRangesT_eq_filterPos content contentStart rs hwf]
    exact filterPos_sublist content contentStart _

/-- Witness for the amended C10 at a concrete input with a negative
contentStart and a range crossing the window boundary. -/
theorem claim_c10_amended_safety_witness :
    (ExcludeRanges (chars "abc") (-2) [⟨-3,0⟩, ⟨0,99⟩]).isSome = true ∧
      List.Sublist (excludeRangesT (chars "abc") (-2) [⟨-3,0⟩, ⟨0,99⟩]) (chars "abc") := by
  have h := claim_c10_amended_safety (chars "abc") (-2) [⟨-3,0⟩, ⟨0,99⟩]
  exact ⟨h.1, h.2 (by constructor <;> decide)⟩

/-! ## Identity Table — the renumbering folds

`src/cmd/mdref/main.go` lines 177-204: a map `urlToRef` from dedup key to
assigned integer plus the ordered list `refs` of reference records; the key is
`url` when the title is empty and `url + "\x00" + title` otherwise.
`src/cmd/mdsidenote/main.go` lines 127-135: a map from goldmark footnote index
to sidenote number with a `nextNum` counter. Go maps are embedded as
association lists looked up front-to-back; entries are inserted at most once
per key, so iteration-order questions do not arise for lookups. -/

/-- Reference record (`reference` struct of mdref/main.go lines 96-100). -/
structure reference where
  url : List Char
  title : List Char
deriving Repr, DecidableEq

/-- Dedup key (mdref/main.go lines 186-189): `url`, or `url + "\x00" + title`
when the title is nonempty. -/
def refKey (url title : List Char) : List Char :=
  if title = [] then url else url ++ '\x00' :: title

def keyOfRef (r : reference) : List Char := refKey r.url r.title

/-- Association-list lookup standing in for a Go map read. -/
def lookupKey : List (List Char × Nat) → List Char → Option Nat
  | [], _ => none
  | (k2, v) :: rest, k => if k2 = k then some v else lookupKey rest k

/-- First index of `k` in `l` (list of keys); `l.length` when absent. -/
def idxOfK : List (List Char) → List Char → Nat
  | [], _ => 0
  | k2 :: rest, k => if k2 = k then 0 else idxOfK rest k + 1

/-- Embedding of the mdref numbering/dedup loop (mdref/main.go lines 182-204,
restricted to the state it threads): returns the per-occurrence assigned
numbers, the final map, and the final ordered reference list. -/
def assignLoop : List (List Char × List Char) → List (List Char × Nat) → List reference →
    List Nat × List (List Char × Nat) × List reference
  | [], m, refs => ([], m, refs)
  | (url, title) :: rest, m, refs =>
      match lookupKey m (refKey url title) with
      | some n =>
          let t := assignLoop rest m refs
          (n :: t.1, t.2)
      | none =>
          let n := refs.length + 1
          let t := assignLoop rest ((refKey url title, n) :: m) (refs ++ [⟨url, title⟩])
          (n :: t.1, t.2)

/-- Association-list lookup for the sidenote-number map. -/
def lookupNat : List (Nat × Nat) → Nat → Option Nat
  | [], _ => none
  | (k2, v) :: rest, k => if k2 = k then some v else lookupNat rest k

/-- Embedding of the sidenote-number assignment loop (mdsidenote/main.go
lines 127-135): iterate references in (sorted) order; unseen indices get
`nextNum` and the counter increments. The map is kept in insertion order. -/
def sidenoteAssign : List Nat → List (Nat × Nat) → Nat → List (Nat × Nat)
  | [], m, _ => m
  | idx :: rest, m, nextNum =>
      match lookupNat m idx with
      | some _ => sidenoteAssign rest m nextNum
      | none => sidenoteAssign rest (m ++ [(idx, nextNum)]) (nextNum + 1)

/-- Accumulator pass of the specification-side first-appearance dedup:
elements of the second list not yet in `seen`, in order, each kept once. -/
def faGo {α : Type} [DecidableEq α] : List α → List α → List α
  | _, [] => []
  | seen, x :: xs => if x ∈ seen then faGo seen xs else x :: faGo (seen ++ [x]) xs

/-- Specification-side first-appearance dedup: keeps the first occurrence of
each element, in order. -/
def firstAppear {α : Type} [DecidableEq α] (l : List α) : List α := faGo [] l

theorem faGo_cons_of_mem {α : Type} [DecidableEq α] {x : α} {seen : List α}
    (xs : List α) (h : x ∈ seen) : faGo seen (x :: xs) = faGo seen xs := by
  simp [faGo, h]

theorem faGo_cons_of_not_mem {α : Type} [DecidableEq α] {x : α} {seen : List α}
    (xs : List α) (h : x ∉ seen) :
    faGo seen (x :: xs) = x :: faGo (seen ++ [x]) xs := by
  simp [faGo, h]

theorem mem_faGo {α : Type} [DecidableEq α] :
    ∀ (l seen : List α) (y : α), y ∈ faGo seen l → y ∈ l := by
  intro l
  induction l with
  | nil =>
      intro seen y h
      simp [faGo] at h
  | cons x xs ih =>
      intro seen y h
      by_cases hx : x ∈ seen
      · rw [faGo_cons_of_mem _ hx] at h
        exact List.mem_cons_of_mem _ (ih seen y h)
      · rw [faGo_cons_of_not_mem _ hx] at h
        rcases List.mem_cons.mp h with rfl | h2
        · exact List.mem_cons_self _ _
        · exact List.mem_cons_of_mem _ (ih (seen ++ [x]) y h2)

theorem faGo_sound {α : Type} [DecidableEq α] :
    ∀ (l seen : List α), (faGo seen l).Nodup ∧ ∀ y ∈ faGo seen l, y ∉ seen := by
  intro l
  induction l with
  | nil =>
      intro seen
      simp [faGo]
  | cons x xs ih =>
      intro seen
      by_cases hx : x ∈ seen
      · rw [faGo_cons_of_mem _ hx]
        exact ih seen
      · rw [faGo_cons_of_not_mem _ hx]
        obtain ⟨hnd, hns⟩ := ih (seen ++ [x])
        refine ⟨List.nodup_cons.mpr ⟨?_, hnd⟩, ?_⟩
        · intro hmem
          exact hns x hmem (List.mem_append_right _ (by simp))
        · intro y hy
          rcases List.mem_cons.mp hy with rfl | h2
          · exact hx
          · intro hys
            exact hns y h2 (List.mem_append_left _ hys)

theorem firstAppear_nodup {α : Type} [DecidableEq α] (l : List α) :
    (firstAppear l).Nodup := (faGo_sound l []).1

theorem mem_firstAppear {α : Type} [DecidableEq α] (l : List α) (y : α)
    (h : y ∈ firstAppear l) : y ∈ l := mem_faGo l [] y h

theorem idxOfK_append_left {l1 : List (List Char)} (l2 : List (List Char)) {k : List Char}
    (h : k ∈ l1) : idxOfK (l1 ++ l2) k = idxOfK l1 k := by
  induction l1 with
  | nil => cases h
  | cons a l ih =>
      by_cases ha : a = k
      · simp [idxOfK, ha]
      · rcases List.mem_cons.mp h with rfl | h2
        · exact absurd rfl ha
        · simp [idxOfK, ha, ih h2]

theorem idxOfK_append_not_mem {l1 : List (List Char)} (l2 : List (List Char)) {k : List Char}
    (h : k ∉ l1) : idxOfK (l1 ++ l2) k = l1.length + idxOfK l2 k := by
  induction l1 with
  | nil => simp [idxOfK]
  | cons a l ih =>
      have ha : ¬ a = k := fun he => h (by simp [he])
      have h2 : k ∉ l := fun hm => h (by simp [hm])
      show idxOfK (a :: (l ++ l2)) k = (a :: l).length + idxOfK l2 k
      simp only [idxOfK, ha, if_false, List.length_cons]
      rw [ih h2]
      omega

theorem idxOfK_inj {l : List (List Char)} {k1 k2 : List Char}
    (h1 : k1 ∈ l) (h2 : k2 ∈ l) (h : idxOfK l k1 = idxOfK l k2) : k1 = k2 := by
  induction l with
  | nil => cases h1
  | cons a l ih =>
      by_cases e1 : a = k1 <;> by_cases e2 : a = k2
      · exact e1.symm.trans e2
      · exfalso
        have hL : idxOfK (a :: l) k1 = 0 := by simp [idxOfK, e1]
        have hR : idxOfK (a :: l) k2 = idxOfK l k2 + 1 := by simp [idxOfK, e2]
        omega
      · exfalso
        have hL : idxOfK (a :: l) k1 = idxOfK l k1 + 1 := by simp [idxOfK, e1]
        have hR : idxOfK (a :: l) k2 = 0 := by simp [idxOfK, e2]
        omega
      · have hL : idxOfK (a :: l) k1 = idxOfK l k1 + 1 := by simp [idxOfK, e1]
        have hR : idxOfK (a :: l) k2 = idxOfK l k2 + 1 := by simp [idxOfK, e2]
        rcases List.mem_cons.mp h1 with rfl | hm1
        · exact absurd rfl e1
        rcases List.mem_cons.mp h2 with rfl | hm2
        · exact absurd rfl e2
        exact ih hm1 hm2 (by omega)

/-- Go-map invariant for the mdref fold: `urlToRef` holds exactly the keys of
the collected `refs`, each bound to its (1-based) first-appearance rank. -/
def TableReps (m : List (List Char × Nat)) (refs : List reference) : Prop :=
  ∀ k, lookupKey m k =
    if k ∈ refs.map keyOfRef then some (idxOfK (refs.map keyOfRef) k + 1) else none

theorem tableReps_nil : TableReps [] [] := by
  intro k
  simp [lookupKey]

/-- Once a key is bound in the map, every later step of the fold preserves the
binding (numbers are never reassigned within a pass). -/
theorem assignLoop_persist (occ : List (List Char × List Char)) :
    ∀ (m : List (List Char × Nat)) (refs : List reference) (k : List Char) (n : Nat),
      lookupKey m k = some n →
      lookupKey (assignLoop occ m refs).2.1 k = some n := by
  induction occ with
  | nil =>
      intro m refs k n h
      simpa [assignLoop] using h
  | cons o rest ih =>
      intro m refs k n h
      obtain ⟨url, title⟩ := o
      cases hl : lookupKey m (refKey url title) with
      | some n2 =>
          simp only [assignLoop, hl]
          exact ih m refs k n h
      | none =>
          have hne : ¬ refKey url title = k := by
            intro he
            rw [he, h] at hl
            cases hl
          simp only [assignLoop, hl]
          apply ih
          simp only [lookupKey, hne, if_false]
          exact h

/-- Key of an occurrence pair. -/
def keyPair (o : List Char × List Char) : List Char := refKey o.1 o.2

theorem keyPair_mk (u t : List Char) : keyPair (u, t) = refKey u t := rfl

/-- Main fold lemma. Starting from a state representing the already-seen
reference list: the assigned number of each occurrence is one plus the
first-appearance rank of its key; the collected references extend the seen
list by the unseen keys in first-appearance order; the map invariant is
preserved; every collected reference is a seen one or an occurrence. -/
theorem assignLoop_main (occ : List (List Char × List Char)) :
    ∀ (m : List (List Char × Nat)) (refs : List reference), TableReps m refs →
      (assignLoop occ m refs).1 =
          occ.map (fun o => idxOfK (refs.map keyOfRef ++
            faGo (refs.map keyOfRef) (occ.map keyPair))
            (keyPair o) + 1)
        ∧ (assignLoop occ m refs).2.2.map keyOfRef =
            refs.map keyOfRef ++
              faGo (refs.map keyOfRef) (occ.map keyPair)
        ∧ TableReps (assignLoop occ m refs).2.1 (assignLoop occ m refs).2.2
        ∧ ∀ r ∈ (assignLoop occ m refs).2.2, r ∈ refs ∨ (r.url, r.title) ∈ occ := by
  induction occ with
  | nil =>
      intro m refs hreps
      refine ⟨by simp [assignLoop, faGo], by simp [assignLoop, faGo], ?_, ?_⟩
      · simpa [assignLoop] using hreps
      · intro r hr
        exact Or.inl (by simpa [assignLoop] using hr)
  | cons o rest ih =>
      intro m refs hreps
      obtain ⟨url, title⟩ := o
      have hkey := hreps (refKey url title)
      by_cases hmem : refKey url title ∈ refs.map keyOfRef
      · rw [if_pos hmem] at hkey
        obtain ⟨ih1, ih2, ih3, ih4⟩ := ih m refs hreps
        have hstep : assignLoop ((url, title) :: rest) m refs =
            ((idxOfK (refs.map keyOfRef) (refKey url title) + 1) ::
                (assignLoop rest m refs).1,
              (assignLoop rest m refs).2) := by
          simp only [assignLoop, hkey]
        have hfilter : faGo (refs.map keyOfRef) (refKey url title :: rest.map keyPair) =
            faGo (refs.map keyOfRef) (rest.map keyPair) :=
          faGo_cons_of_mem _ hmem
        refine ⟨?_, ?_, ?_, ?_⟩
        · rw [hstep]
          simp only [List.map_cons, keyPair_mk, hfilter]
          rw [idxOfK_append_left _ hmem, ih1]
        · rw [hstep]
          simp only [List.map_cons, keyPair_mk, hfilter]
          exact ih2
        · rw [hstep]
          exact ih3
        · rw [hstep]
          intro r hr
          rcases ih4 r hr with hr1 | hr2
          · exact Or.inl hr1
          · exact Or.inr (List.mem_cons_of_mem _ hr2)
      · rw [if_neg hmem] at hkey
        have hmk : (refs ++ [reference.mk url title]).map keyOfRef =
            refs.map keyOfRef ++ [refKey url title] := by
          rw [List.map_append]
          rfl
        have hreps' : TableReps ((refKey url title, refs.length + 1) :: m)
            (refs ++ [reference.mk url title]) := by
          intro k2
          by_cases he : refKey url title = k2
          · subst he
            have hmemk : refKey url title ∈ (refs ++ [reference.mk url title]).map keyOfRef := by
              rw [hmk]
              simp
            simp only [lookupKey, if_pos rfl]
            rw [if_pos hmemk, hmk, idxOfK_append_not_mem _ hmem]
            simp [idxOfK]
          · have hlk : lookupKey ((refKey url title, refs.length + 1) :: m) k2 =
                lookupKey m k2 := by
              simp [lookupKey, he]
            rw [hlk, hreps k2, hmk]
            by_cases h2 : k2 ∈ refs.map keyOfRef
            · rw [if_pos h2, if_pos (List.mem_append_left _ h2), idxOfK_append_left _ h2]
            · have hno : k2 ∉ refs.map keyOfRef ++ [refKey url title] := by
                intro hc
                rcases List.mem_append.mp hc with hc | hc
                · exact h2 hc
                · have hc2 : k2 = refKey url title := by simpa using hc
                  exact he hc2.symm
              rw [if_neg h2, if_neg hno]
        obtain ⟨ih1, ih2, ih3, ih4⟩ :=
          ih ((refKey url title, refs.length + 1) :: m) (refs ++ [reference.mk url title]) hreps'
        have hstep : assignLoop ((url, title) :: rest) m refs =
            ((refs.length + 1) ::
                (assignLoop rest ((refKey url title, refs.length + 1) :: m)
                  (refs ++ [reference.mk url title])).1,
              (assignLoop rest ((refKey url title, refs.length + 1) :: m)
                (refs ++ [reference.mk url title])).2) := by
          simp only [assignLoop, hkey]
        have hfax : faGo (refs.map keyOfRef) (refKey url title :: rest.map keyPair) =
            refKey url title ::
              faGo (refs.map keyOfRef ++ [refKey url title]) (rest.map keyPair) :=
          faGo_cons_of_not_mem _ hmem
        have hU : refs.map keyOfRef ++
              faGo (refs.map keyOfRef) (refKey url title :: rest.map keyPair) =
            (refs ++ [reference.mk url title]).map keyOfRef ++
              faGo ((refs ++ [reference.mk url title]).map keyOfRef)
                (rest.map keyPair) := by
          rw [hmk, hfax]
          rw [← List.singleton_append, ← List.append_assoc]
        refine ⟨?_, ?_, ?_, ?_⟩
        · rw [hstep]
          simp only [List.map_cons, keyPair_mk, hU]
          have hmemk : refKey url title ∈ refs.map keyOfRef ++ [refKey url title] := by
            simp
          have hhead : idxOfK ((refs ++ [reference.mk url title]).map keyOfRef ++
              faGo ((refs ++ [reference.mk url title]).map keyOfRef) (rest.map keyPair))
              (refKey url title) = refs.length := by
            rw [hmk, idxOfK_append_left _ hmemk, idxOfK_append_not_mem _ hmem]
            simp [idxOfK]
          rw [hhead, ih1]
        · rw [hstep]
          simp only [List.map_cons, keyPair_mk, hU]
          exact ih2
        · rw [hstep]
          exact ih3
        · rw [hstep]
          intro r hr
          rcases ih4 r hr with hr1 | hr2
          · rcases List.mem_append.mp hr1 with hr1 | hr1
            · exact Or.inl hr1
            · have hr' : r = reference.mk url title := by simpa using hr1
              subst hr'
              exact Or.inr (by simp)
          · exact Or.inr (List.mem_cons_of_mem _ hr2)

theorem lookupNat_eq_none_iff (m : List (Nat × Nat)) (k : Nat) :
    lookupNat m k = none ↔ k ∉ m.map Prod.fst := by
  induction m with
  | nil => simp [lookupNat]
  | cons a rest ih =>
      obtain ⟨k2, v⟩ := a
      by_cases he : k2 = k
      · simp [lookupNat, he]
      · have he2 : ¬ k = k2 := fun h => he h.symm
        simp [lookupNat, he, ih, he2]

theorem lookupNat_append_some {m : List (Nat × Nat)} {k n : Nat} (x : Nat × Nat)
    (h : lookupNat m k = some n) : lookupNat (m ++ [x]) k = some n := by
  induction m with
  | nil => simp [lookupNat] at h
  | cons a rest ih =>
      obtain ⟨k2, v⟩ := a
      by_cases he : k2 = k
      · simp only [lookupNat, he, if_pos rfl] at h
        simp only [List.cons_append, lookupNat, if_pos he]
        exact h
      · simp only [lookupNat, he, if_false] at h
        simp only [List.cons_append, lookupNat, he, if_false]
        exact ih h

/-- Once an index has a sidenote number, later steps never change it. -/
theorem sidenoteAssign_persist (idxs : List Nat) :
    ∀ (m : List (Nat × Nat)) (nextNum k n : Nat), lookupNat m k = some n →
      lookupNat (sidenoteAssign idxs m nextNum) k = some n := by
  induction idxs with
  | nil =>
      intro m nextNum k n h
      simpa [sidenoteAssign] using h
  | cons idx rest ih =>
      intro m nextNum k n h
      cases hl : lookupNat m idx with
      | some v =>
          simp only [sidenoteAssign, hl]
          exact ih _ _ _ _ h
      | none =>
          simp only [sidenoteAssign, hl]
          exact ih _ _ _ _ (lookupNat_append_some _ h)

/-- Main sidenote-number lemma: keys are collected in first-appearance order
and the numbers handed out continue the dense run starting at `nextNum`. -/
theorem sidenoteAssign_main (idxs : List Nat) :
    ∀ (m : List (Nat × Nat)) (nextNum : Nat), nextNum = m.length + 1 →
      (sidenoteAssign idxs m nextNum).map Prod.fst =
          m.map Prod.fst ++ faGo (m.map Prod.fst) idxs
        ∧ (sidenoteAssign idxs m nextNum).map Prod.snd =
            m.map Prod.snd ++ List.range' nextNum
              (faGo (m.map Prod.fst) idxs).length := by
  induction idxs with
  | nil =>
      intro m nextNum _
      simp [sidenoteAssign, faGo]
  | cons idx rest ih =>
      intro m nextNum hnext
      cases hl : lookupNat m idx with
      | some v =>
          have hmem : idx ∈ m.map Prod.fst := by
            by_contra hc
            rw [← lookupNat_eq_none_iff] at hc
            rw [hl] at hc
            cases hc
          have hfilter : faGo (m.map Prod.fst) (idx :: rest) =
              faGo (m.map Prod.fst) rest :=
            faGo_cons_of_mem _ hmem
          simp only [sidenoteAssign, hl, hfilter]
          exact ih m nextNum hnext
      | none =>
          have hmem : idx ∉ m.map Prod.fst := (lookupNat_eq_none_iff m idx).mp hl
          have hfst : (m ++ [(idx, nextNum)]).map Prod.fst = m.map Prod.fst ++ [idx] := by
            simp
          have hsnd : (m ++ [(idx, nextNum)]).map Prod.snd = m.map Prod.snd ++ [nextNum] := by
            simp
          have hlen : nextNum + 1 = (m ++ [(idx, nextNum)]).length + 1 := by
            simp [hnext]
          obtain ⟨ih1, ih2⟩ := ih (m ++ [(idx, nextNum)]) (nextNum + 1) hlen
          have hfa : faGo (m.map Prod.fst) (idx :: rest) =
              idx :: faGo ((m ++ [(idx, nextNum)]).map Prod.fst) rest := by
            rw [hfst]
            exact faGo_cons_of_not_mem _ hmem
          constructor
          · simp only [sidenoteAssign, hl]
            rw [ih1, hfa, hfst]
            simp [List.append_assoc]
          · simp only [sidenoteAssign, hl]
            rw [ih2, hfa, hsnd]
            rw [List.length_cons, List.range'_succ]
            simp [List.append_assoc]

/-- Reading the `j`-th inserted binding back out of an association list with
distinct keys. -/
theorem lookupNat_get {m : List (Nat × Nat)} (hnd : (m.map Prod.fst).Nodup) :
    ∀ (j : Nat) (h : j < m.length),
      lookupNat m (m.get ⟨j, h⟩).1 = some (m.get ⟨j, h⟩).2 := by
  induction m with
  | nil =>
      intro j h
      exact absurd h (by simp)
  | cons a rest ih =>
      intro j h
      obtain ⟨k2, v⟩ := a
      have hnd2 : (k2 :: rest.map Prod.fst).Nodup := by simpa using hnd
      obtain ⟨hk2, hnd'⟩ := List.nodup_cons.mp hnd2
      cases j with
      | zero => simp [lookupNat]
      | succ j =>
          have hj : j < rest.length := by simpa using h
          have hmem : (rest.get ⟨j, hj⟩).1 ∈ rest.map Prod.fst :=
            List.mem_map_of_mem _ (rest.get_mem _ _)
          have hne : ¬ k2 = (rest.get ⟨j, hj⟩).1 := fun he => hk2 (he ▸ hmem)
          simp only [List.get_cons_succ, lookupNat, hne, if_false]
          exact ih hnd' j hj

/-- The dedup key map is injective on NUL-free urls and titles. -/
theorem append_nul_inj : ∀ (u1 u2 t1 t2 : List Char), '\x00' ∉ u1 → '\x00' ∉ u2 →
    u1 ++ '\x00' :: t1 = u2 ++ '\x00' :: t2 → u1 = u2 ∧ t1 = t2 := by
  intro u1
  induction u1 with
  | nil =>
      intro u2 t1 t2 _ h2 h
      cases u2 with
      | nil => simpa using h
      | cons c u2' =>
          simp only [List.nil_append, List.cons_append] at h
          injection h with hc _
          exact absurd (hc ▸ List.mem_cons_self c u2') h2
  | cons c u1' ih =>
      intro u2 t1 t2 h1 h2 h
      cases u2 with
      | nil =>
          simp only [List.nil_append, List.cons_append] at h
          injection h with hc _
          exact absurd (hc ▸ List.mem_cons_self c u1') h1
      | cons d u2' =>
          simp only [List.cons_append] at h
          injection h with hc htl
          have h1' : '\x00' ∉ u1' := fun hm => h1 (List.mem_cons_of_mem _ hm)
          have h2' : '\x00' ∉ u2' := fun hm => h2 (List.mem_cons_of_mem _ hm)
          obtain ⟨hu, ht⟩ := ih u2' t1 t2 h1' h2' htl
          exact ⟨by rw [hc, hu], ht⟩

theorem refKey_inj {u1 t1 u2 t2 : List Char}
    (h1 : '\x00' ∉ u1) (h2 : '\x00' ∉ u2)
    (h : refKey u1 t1 = refKey u2 t2) : u1 = u2 ∧ t1 = t2 := by
  unfold refKey at h
  by_cases e1 : t1 = [] <;> by_cases e2 : t2 = []
  · rw [if_pos e1, if_pos e2] at h
    exact ⟨h, e1.trans e2.symm⟩
  · rw [if_pos e1, if_neg e2] at h
    have : '\x00' ∈ u1 := by
      rw [h]
      simp
    exact absurd this h1
  · rw [if_neg e1, if_pos e2] at h
    have : '\x00' ∈ u2 := by
      rw [← h]
      simp
    exact absurd this h2
  · rw [if_neg e1, if_neg e2] at h
    exact append_nul_inj u1 u2 t1 t2 h1 h2 h

/-- C2: for occurrences in document order, the integer assigned to each
occurrence is one plus the first-appearance rank of its identity key — so the
integers assigned at first appearances form exactly 1,2,3,… in that order —
and a binding once present in the map survives every later step of the pass
(never reassigned). Both renumbering folds are covered: the mdref url/title
fold and the mdsidenote footnote-index fold, whose map in insertion order
carries the distinct indices in first-appearance order with values exactly
1,2,3,…. -/
theorem claim_c2_dense_first_appearance (occ : List (List Char × List Char))
    (idxs : List Nat) :
    ((assignLoop occ [] []).1 =
        occ.map (fun o => idxOfK (firstAppear (occ.map keyPair)) (keyPair o) + 1))
      ∧ (∀ (m : List (List Char × Nat)) (refs : List reference) (k : List Char) (n : Nat),
          lookupKey m k = some n → lookupKey (assignLoop occ m refs).2.1 k = some n)
      ∧ (sidenoteAssign idxs [] 1).map Prod.fst = firstAppear idxs
      ∧ (sidenoteAssign idxs [] 1).map Prod.snd =
          List.range' 1 (firstAppear idxs).length
      ∧ (∀ (m : List (Nat × Nat)) (nextNum k v : Nat),
          lookupNat m k = some v → lookupNat (sidenoteAssign idxs m nextNum) k = some v) := by
  obtain ⟨h1, _, _, _⟩ := assignLoop_main occ [] [] tableReps_nil
  obtain ⟨h3, h4⟩ := sidenoteAssign_main idxs [] 1 rfl
  refine ⟨?_, fun m refs k n h => assignLoop_persist occ m refs k n h, ?_, ?_,
    fun m nextNum k v h => sidenoteAssign_persist idxs m nextNum k v h⟩
  · simpa [firstAppear] using h1
  · simpa [firstAppear] using h3
  · simpa [firstAppear] using h4

/-- Witness for C2 on concrete runs: duplicate identities reuse their number,
first appearances get 1,2,… in order, and existing bindings survive. -/
theorem claim_c2_dense_first_appearance_witness :
    ((assignLoop [(chars "u", []), (chars "v", chars "t"), (chars "u", [])] [] []).1 =
        [1, 2, 1])
      ∧ lookupKey (assignLoop [(chars "v", [])] [(chars "w", 7)] []).2.1 (chars "w") = some 7
      ∧ (sidenoteAssign [3, 1, 3] [] 1).map Prod.fst = [3, 1]
      ∧ (sidenoteAssign [3, 1, 3] [] 1).map Prod.snd = [1, 2]
      ∧ lookupNat (sidenoteAssign [3, 1, 3] [(9, 5)] 1) 9 = some 5 := by
  obtain ⟨h1, _, h3, h4, _⟩ := claim_c2_dense_first_appearance
    [(chars "u", []), (chars "v", chars "t"), (chars "u", [])] [3, 1, 3]
  obtain ⟨_, h2, _, _, h5⟩ := claim_c2_dense_first_appearance
    [(chars "v", [])] [3, 1, 3]
  exact ⟨h1.trans (by decide), h2 _ _ _ _ (by decide), h3.trans (by decide),
    h4.trans (by decide), h5 _ _ _ _ (by decide)⟩

/-! ## String utilities shared by the converters

Embeddings of the Go standard-library calls the transforms make:
`bytes.Split(src, "\n")`, `bytes.TrimSpace`, `bytes.Index`,
`strings.TrimRight(s, "\n")`, `strconv`-style integer formatting and the `%q`
quoting used for titles. -/

/-- Embedding of `bytes.Split(source, []byte("\n"))`. -/
def splitLinesGo : List Char → List (List Char)
  | [] => [[]]
  | c :: rest =>
      if c = '\n' then [] :: splitLinesGo rest
      else
        match splitLinesGo rest with
        | [] => [[c]]
        | line :: more => (c :: line) :: more

/-- ASCII fragment of Go `unicode.IsSpace` (the inputs of interest are
ASCII). -/
def isSpaceGo (c : Char) : Bool :=
  c == ' ' || c == '\t' || c == '\n' || c == '\x0B' || c == '\x0C' || c == '\r'

/-- Embedding of `bytes.TrimSpace`. -/
def trimSpaceGo (l : List Char) : List Char :=
  ((l.dropWhile isSpaceGo).reverse.dropWhile isSpaceGo).reverse

/-- Embedding of `strings.TrimRight(s, "\n")`. -/
def rtrimNL (l : List Char) : List Char :=
  (l.reverse.dropWhile (fun c => c == '\n')).reverse

/-- Does `l` start with `pat`? -/
def startsWithL : List Char → List Char → Bool
  | _, [] => true
  | [], _ :: _ => false
  | c :: rest, p :: ps => if c = p then startsWithL rest ps else false

/-- First index at which `pat` occurs in `l`, scanning from index `i`. -/
def findSubFrom : List Char → List Char → Nat → Option Nat
  | [], pat, i => if pat = [] then some i else none
  | c :: rest, pat, i =>
      if startsWithL (c :: rest) pat then some i else findSubFrom rest pat (i + 1)

/-- Embedding of `bytes.Index` (as `Option`; Go returns `-1` for `none`). -/
def findSub (l pat : List Char) : Option Nat := findSubFrom l pat 0

def digitCh (n : Nat) : Char := Char.ofNat (48 + n)

def natCharsAux : Nat → Nat → List Char
  | 0, _ => []
  | fuel + 1, n =>
      if n < 10 then [digitCh n]
      else natCharsAux fuel (n / 10) ++ [digitCh (n % 10)]

/-- Decimal digits of `n` (the `%d` formatting of the reference numbers). -/
def natChars (n : Nat) : List Char := natCharsAux (n + 1) n

/-- Escapes of Go `%q` (strconv.Quote) for the characters our inputs use;
all other printable ASCII characters are kept verbatim. -/
def goQuoteEsc (c : Char) : List Char :=
  if c = '"' then ['\\', '"']
  else if c = '\\' then ['\\', '\\']
  else if c = '\n' then ['\\', 'n']
  else if c = '\t' then ['\\', 't']
  else if c = '\r' then ['\\', 'r']
  else [c]

/-- Embedding of Go `%q` title quoting. -/
def goQuote (s : List Char) : List Char :=
  '"' :: (s.map goQuoteEsc).flatten ++ ['"']

/-! ## mdref — inline links to reference-style links (`src/cmd/mdref/main.go`)

The goldmark parser is the external collaborator (spec §2): the transform is
parameterized by the link occurrences it reports (`linkInfo`, lines 87-94,
collected and position-sorted by lines 126-174). Everything downstream of the
parser — reference-definition line detection, exclusion, numbering, assembly,
the appended definition block (lines 103-124 and 171-224) — is embedded. -/

/-- `linkInfo` (mdref/main.go lines 87-94). Positions are byte offsets into
the content; links whose extent resolution failed are dropped before this
point (line 149), so offsets are nonnegative. -/
structure linkInfo where
  start : Nat
  stop : Nat
  text : List Char
  url : List Char
  title : List Char
deriving Repr, DecidableEq

/-- One step of `findRefDefRanges` (mdref/main.go lines 235-263): a line whose
trimmed form starts with `[`, contains `]:` after at least one label byte, and
whose label does not start with `^`, marks the whole line (newline included)
as a reference-definition range. -/
def refDefRangesGo : List (List Char) → Nat → List ByteRange
  | [], _ => []
  | line :: more, offset =>
      let rest := refDefRangesGo more (offset + line.length + 1)
      match trimSpaceGo line with
      | [] => rest
      | c :: tr =>
          if c = '[' then
            match findSub (c :: tr) (chars "]:") with
            | some cb =>
                if 1 < cb then
                  if (c :: tr).get? 1 = some '^' then rest
                  else ⟨(offset : Int), ((offset + line.length + 1 : Nat) : Int)⟩ :: rest
                else rest
            | none => rest
          else rest

/-- Embedding of `findRefDefRanges` (mdref/main.go lines 233-264). -/
def findRefDefRanges (source : List Char) : List ByteRange :=
  refDefRangesGo (splitLinesGo source) 0

/-- The emitted reference-style link token `[text][N]` (mdref/main.go
line 201). -/
def refLinkToken (text : List Char) (n : Nat) : List Char :=
  '[' :: text ++ ']' :: '[' :: natChars n ++ [']']

/-- Everything of a definition line before its newline (mdref/main.go lines
215-221). -/
def refDefFront (i : Nat) (r : reference) : List Char :=
  '[' :: natChars (i + 1) ++ ']' :: ':' :: ' ' :: r.url ++
    (if r.title = [] then [] else ' ' :: goQuote r.title)

/-- One definition line `[N]: url` or `[N]: url "title"` (mdref/main.go lines
215-221); `i` is the zero-based index, the printed number is `i+1`. -/
def refDefLine (i : Nat) (r : reference) : List Char :=
  refDefFront i r ++ ['\n']

def refDefBlockGo : Nat → List reference → List Char
  | _, [] => []
  | i, r :: rest => refDefLine i r ++ refDefBlockGo (i + 1) rest

/-- The appended definition block, one line per collected reference in
ascending numeric order. -/
def refDefBlock (refs : List reference) : List Char := refDefBlockGo 0 refs

/-- The assembly loop of mdref's transform (main.go lines 180-210): per link,
emit the exclusion-filtered gap and the `[text][N]` token, threading the
numbering state; after the last link, emit the exclusion-filtered remainder
with trailing newlines normalized to one. Returns the body and the collected
references. -/
def mdrefLoop (source : List Char) (rngs : List ByteRange) :
    List linkInfo → Nat → List (List Char × Nat) → List reference →
      List Char × List reference
  | [], lastEnd, _, refs =>
      (rtrimNL (excludeRangesT (source.drop lastEnd) lastEnd rngs) ++ ['\n'], refs)
  | link :: restL, lastEnd, m, refs =>
      let gap := excludeRangesT ((source.take link.start).drop lastEnd) lastEnd rngs
      match lookupKey m (refKey link.url link.title) with
      | some n =>
          let t := mdrefLoop source rngs restL link.stop m refs
          (gap ++ refLinkToken link.text n ++ t.1, t.2)
      | none =>
          let n := refs.length + 1
          let t := mdrefLoop source rngs restL link.stop
            ((refKey link.url link.title, n) :: m) (refs ++ [⟨link.url, link.title⟩])
          (gap ++ refLinkToken link.text n ++ t.1, t.2)

/-- Embedding of mdref's `transform` (main.go lines 102-225) downstream of the
parser: `links` is the position-sorted occurrence list the goldmark walk
produces (lines 126-174; `sort.Slice` by `start`, line 171). -/
def mdrefTransform (links : List linkInfo) (content : List Char) : List Char :=
  let rngs := findRefDefRanges content
  let res := mdrefLoop content rngs links 0 [] []
  if res.2 = [] then res.1
  else res.1 ++ '\n' :: refDefBlock res.2

/-! ## mdinline — reference-style links to inline links
(`src/cmd/mdinline/main.go`)

Same skeleton as mdref (its `findRefDefRanges` at lines 181-209 is
byte-for-byte the same function, so the embedding is shared); the token
emitted per link is `[text](url)` or `[text](url "title")` (lines 144-149)
and no definition block is appended. -/

/-- The emitted inline link token (mdinline/main.go lines 145-148). -/
def inlineLinkToken (text url title : List Char) : List Char :=
  if title = [] then '[' :: text ++ ']' :: '(' :: url ++ [')']
  else '[' :: text ++ ']' :: '(' :: url ++ ' ' :: goQuote title ++ [')']

/-- Assembly loop of mdinline's `transform` (main.go lines 137-158). -/
def mdinlineLoop (source : List Char) (rngs : List ByteRange) :
    List linkInfo → Nat → List Char
  | [], lastEnd =>
      rtrimNL (excludeRangesT (source.drop lastEnd) lastEnd rngs) ++ ['\n']
  | link :: restL, lastEnd =>
      excludeRangesT ((source.take link.start).drop lastEnd) lastEnd rngs ++
        inlineLinkToken link.text link.url link.title ++
        mdinlineLoop source rngs restL link.stop

/-- Embedding of mdinline's `transform` (main.go lines 46-161) downstream of
the parser; `links` is the position-sorted list of reference-style link
occurrences (inline links and links inside definitions are filtered out by
lines 106-118 before this point). -/
def mdinlineTransform (links : List linkInfo) (content : List Char) : List Char :=
  mdinlineLoop content (findRefDefRanges content) links 0

/-! ## Trailing-newline bookkeeping -/

/-- Does `l` end with exactly one `\n` (one 0x0A at the end, not zero, not
more)? -/
def endsOneNL (l : List Char) : Bool :=
  match l.reverse with
  | [] => false
  | c :: t =>
      c == '\n' &&
        (match t with
          | [] => true
          | d :: _ => !(d == '\n'))

theorem endsOneNL_append_newline (x : List Char) :
    endsOneNL (x ++ ['\n']) = true ↔ x.getLast? ≠ some '\n' := by
  have hrev : (x ++ ['\n']).reverse = '\n' :: x.reverse := by simp
  rw [endsOneNL, hrev]
  cases hx : x.reverse with
  | nil =>
      have : x = [] := by simpa using congrArg List.reverse hx
      subst this
      simp
  | cons d t =>
      have hlast : x.getLast? = some d := by
        rw [← List.head?_reverse, hx]
        rfl
      rw [hlast]
      by_cases hd : d = '\n' <;> simp [hd]

theorem dropWhile_head_false (p : Char → Bool) :
    ∀ (l : List Char) {x : Char} {xs : List Char}, l.dropWhile p = x :: xs → p x = false := by
  intro l
  induction l with
  | nil =>
      intro x xs h
      simp [List.dropWhile] at h
  | cons c rest ih =>
      intro x xs h
      rw [List.dropWhile_cons] at h
      by_cases hc : p c
      · rw [if_pos hc] at h
        exact ih h
      · rw [if_neg hc] at h
        injection h with h1 _
        subst h1
        simpa using hc

theorem rtrim_getLast_ne (b : List Char) : (rtrimNL b).getLast? ≠ some '\n' := by
  rw [rtrimNL, ← List.head?_reverse, List.reverse_reverse]
  cases hx : b.reverse.dropWhile (fun c => c == '\n') with
  | nil => simp
  | cons d t =>
      have hd : (fun c => c == '\n') d = false :=
        dropWhile_head_false (fun c => c == '\n') b.reverse hx
      simp only [beq_eq_false_iff_ne, ne_eq] at hd
      simp [hd]

theorem endsOneNL_rtrim_append (a b : List Char) (ha : a.getLast? ≠ some '\n') :
    endsOneNL (a ++ (rtrimNL b ++ ['\n'])) = true := by
  rw [← List.append_assoc, endsOneNL_append_newline]
  cases hr : rtrimNL b with
  | nil => simpa [hr] using ha
  | cons c t =>
      rw [List.getLast?_append_of_ne_nil _ (by simp)]
      rw [← hr]
      exact rtrim_getLast_ne b

theorem endsOneNL_append_left (a y : List Char) (ha : a.getLast? ≠ some '\n')
    (hy : endsOneNL y = true) : endsOneNL (a ++ y) = true := by
  rw [endsOneNL] at hy
  cases hyr : y.reverse with
  | nil =>
      rw [hyr] at hy
      cases hy
  | cons c t =>
      rw [hyr] at hy
      obtain ⟨hc0, hin⟩ := Bool.and_eq_true_iff.mp hy
      have hc : c = '\n' := by simpa using hc0
      have hrev : (a ++ y).reverse = c :: (t ++ a.reverse) := by
        rw [List.reverse_append, hyr]
        simp
      rw [endsOneNL, hrev]
      cases t with
      | cons d t2 =>
          simp only [List.cons_append]
          simp only [hc]
          simpa using hin
      | nil =>
          cases har : a.reverse with
          | nil => simp [hc]
          | cons e t3 =>
              have he : ¬ e = '\n' := by
                intro hce
                apply ha
                rw [← List.head?_reverse, har, hce]
                rfl
              simp [hc, he]

theorem excludeRangesT_nil_ranges (content : List Char) (contentStart : Int) :
    excludeRangesT content contentStart [] = content := by
  unfold excludeRangesT excludeLoopT
  by_cases h : (0 : Int) < content.length
  · simp [h]
  · have hc : content = [] := by
      have : content.length = 0 := by omega
      exact List.length_eq_zero.mp this
    simp [hc]

theorem goQuote_getLast (t : List Char) : (goQuote t).getLast? = some '"' := by
  unfold goQuote
  rw [show ('"' :: (t.map goQuoteEsc).flatten ++ ['"']) =
      ('"' :: (t.map goQuoteEsc).flatten) ++ ['"'] by simp]
  exact List.getLast?_concat _

theorem refLinkToken_getLast (text : List Char) (n : Nat) :
    (refLinkToken text n).getLast? = some ']' := by
  unfold refLinkToken
  rw [show ('[' :: text ++ ']' :: '[' :: natChars n ++ [']']) =
      ('[' :: text ++ ']' :: '[' :: natChars n) ++ [']'] by simp]
  exact List.getLast?_concat _

theorem inlineLinkToken_getLast (text url title : List Char) :
    (inlineLinkToken text url title).getLast? = some ')' := by
  unfold inlineLinkToken
  by_cases ht : title = []
  · rw [if_pos ht]
    rw [show ('[' :: text ++ ']' :: '(' :: url ++ [')']) =
        ('[' :: text ++ ']' :: '(' :: url) ++ [')'] by simp]
    exact List.getLast?_concat _
  · rw [if_neg ht]
    rw [show ('[' :: text ++ ']' :: '(' :: url ++ ' ' :: goQuote title ++ [')']) =
        ('[' :: text ++ ']' :: '(' :: url ++ ' ' :: goQuote title) ++ [')'] by simp]
    exact List.getLast?_concat _

theorem refDefFront_getLast (i : Nat) (r : reference) (hnl : '\n' ∉ r.url) :
    (refDefFront i r).getLast? ≠ some '\n' := by
  unfold refDefFront
  by_cases ht : r.title = []
  · rw [if_pos ht]
    by_cases hu : r.url = []
    · rw [hu]
      rw [show ('[' :: natChars (i + 1) ++ ']' :: ':' :: ' ' :: ([] : List Char) ++ []) =
          ('[' :: natChars (i + 1) ++ [']', ':']) ++ [' '] by simp]
      rw [List.getLast?_concat]
      simp
    · rw [show ('[' :: natChars (i + 1) ++ ']' :: ':' :: ' ' :: r.url ++ []) =
          ('[' :: natChars (i + 1) ++ [']', ':', ' ']) ++ r.url by simp]
      rw [List.getLast?_append_of_ne_nil _ hu]
      intro hc
      have hmem : '\n' ∈ r.url := by
        have := List.mem_of_mem_getLast? (by rw [hc]; exact rfl)
        exact this
      exact hnl hmem
  · rw [if_neg ht]
    rw [show ('[' :: natChars (i + 1) ++ ']' :: ':' :: ' ' :: r.url ++
          (' ' :: goQuote r.title)) =
        ('[' :: natChars (i + 1) ++ [']', ':', ' '] ++ r.url ++ [' ']) ++
          goQuote r.title by simp]
    rw [List.getLast?_append_of_ne_nil _ (by simp [goQuote])]
    rw [goQuote_getLast]
    simp

theorem refDefBlockGo_endsOne :
    ∀ (refs : List reference) (a : List Char) (i : Nat), refs ≠ [] →
      (∀ r ∈ refs, '\n' ∉ r.url) →
      endsOneNL (a ++ refDefBlockGo i refs) = true := by
  intro refs
  induction refs with
  | nil =>
      intro a i h
      cases h rfl
  | cons r rest ih =>
      intro a i _ hnl
      by_cases hr : rest = []
      · subst hr
        simp only [refDefBlockGo, List.append_nil, refDefLine]
        rw [← List.append_assoc, endsOneNL_append_newline]
        rw [List.getLast?_append_of_ne_nil _ ?hne]
        · exact refDefFront_getLast i r (hnl r (by simp))
        · case hne =>
            simp [refDefFront]
      · have hres : a ++ refDefBlockGo i (r :: rest) =
            (a ++ refDefLine i r) ++ refDefBlockGo (i + 1) rest := by
          simp [refDefBlockGo, List.append_assoc]
        rw [hres]
        exact ih (a ++ refDefLine i r) (i + 1) hr
          (fun x hx => hnl x (List.mem_cons_of_mem _ hx))

theorem mdrefLoop_endsOne (source : List Char) (rngs : List ByteRange) :
    ∀ (links : List linkInfo) (lastEnd : Nat) (m : List (List Char × Nat))
      (refs : List reference),
      endsOneNL (mdrefLoop source rngs links lastEnd m refs).1 = true := by
  intro links
  induction links with
  | nil =>
      intro lastEnd m refs
      have h := endsOneNL_rtrim_append []
        (excludeRangesT (source.drop lastEnd) lastEnd rngs) (by simp)
      simpa [mdrefLoop] using h
  | cons link restL ih =>
      intro lastEnd m refs
      cases hl : lookupKey m (refKey link.url link.title) with
      | some n =>
          simp only [mdrefLoop, hl]
          refine endsOneNL_append_left _ _ ?_ (ih link.stop m refs)
          rw [List.getLast?_append_of_ne_nil _ (by simp [refLinkToken]),
            refLinkToken_getLast]
          simp
      | none =>
          simp only [mdrefLoop, hl]
          refine endsOneNL_append_left _ _ ?_ (ih link.stop _ _)
          rw [List.getLast?_append_of_ne_nil _ (by simp [refLinkToken]),
            refLinkToken_getLast]
          simp

theorem mdinlineLoop_endsOne (source : List Char) (rngs : List ByteRange) :
    ∀ (links : List linkInfo) (lastEnd : Nat),
      endsOneNL (mdinlineLoop source rngs links lastEnd) = true := by
  intro links
  induction links with
  | nil =>
      intro lastEnd
      have h := endsOneNL_rtrim_append []
        (excludeRangesT (source.drop lastEnd) lastEnd rngs) (by simp)
      simpa [mdinlineLoop] using h
  | cons link restL ih =>
      intro lastEnd
      simp only [mdinlineLoop]
      refine endsOneNL_append_left _ _ ?_ (ih link.stop)
      rw [List.getLast?_append_of_ne_nil _ (by simp [inlineLinkToken]; split <;> simp),
        inlineLinkToken_getLast]
      simp

/-- The reference list collected by mdref's assembly loop is exactly the one
the numbering fold collects. -/
theorem mdrefLoop_refs (source : List Char) (rngs : List ByteRange) :
    ∀ (links : List linkInfo) (lastEnd : Nat) (m : List (List Char × Nat))
      (refs : List reference),
      (mdrefLoop source rngs links lastEnd m refs).2 =
        (assignLoop (links.map fun l => (l.url, l.title)) m refs).2.2 := by
  intro links
  induction links with
  | nil =>
      intro lastEnd m refs
      simp [mdrefLoop, assignLoop]
  | cons link restL ih =>
      intro lastEnd m refs
      cases hl : lookupKey m (refKey link.url link.title) with
      | some n =>
          simp only [mdrefLoop, assignLoop, List.map_cons, hl]
          exact ih link.stop m refs
      | none =>
          simp only [mdrefLoop, assignLoop, List.map_cons, hl]
          exact ih link.stop _ _

theorem mem_faGo_iff {α : Type} [DecidableEq α] :
    ∀ (l seen : List α) (y : α), y ∈ faGo seen l ↔ (y ∈ l ∧ y ∉ seen) := by
  intro l
  induction l with
  | nil =>
      intro seen y
      simp [faGo]
  | cons x xs ih =>
      intro seen y
      by_cases hx : x ∈ seen
      · rw [faGo_cons_of_mem _ hx, ih]
        constructor
        · rintro ⟨hy, hns⟩
          exact ⟨List.mem_cons_of_mem _ hy, hns⟩
        · rintro ⟨hy, hns⟩
          rcases List.mem_cons.mp hy with rfl | hy2
          · exact absurd hx hns
          · exact ⟨hy2, hns⟩
      · rw [faGo_cons_of_not_mem _ hx]
        constructor
        · intro hy
          rcases List.mem_cons.mp hy with rfl | hy2
          · exact ⟨List.mem_cons_self _ _, hx⟩
          · obtain ⟨h1, h2⟩ := (ih _ y).mp hy2
            exact ⟨List.mem_cons_of_mem _ h1, fun hs => h2 (List.mem_append_left _ hs)⟩
        · rintro ⟨hy, hns⟩
          rcases List.mem_cons.mp hy with rfl | hy2
          · exact List.mem_cons_self _ _
          · by_cases hyx : y = x
            · subst hyx
              exact List.mem_cons_self _ _
            · refine List.mem_cons_of_mem _ ((ih _ y).mpr ⟨hy2, ?_⟩)
              intro hs
              rcases List.mem_append.mp hs with hs | hs
              · exact hns hs
              · exact hyx (by simpa using hs)

theorem mem_firstAppear_iff {α : Type} [DecidableEq α] (l : List α) (y : α) :
    y ∈ firstAppear l ↔ y ∈ l := by
  rw [firstAppear, mem_faGo_iff]
  simp

theorem goQuoteEsc_ne_newline (c x : Char) (h : x ∈ goQuoteEsc c) : x ≠ '\n' := by
  unfold goQuoteEsc at h
  by_cases h1 : c = '"'
  · simp [h1] at h
    rcases h with rfl | rfl <;> decide
  by_cases h2 : c = '\\'
  · simp [h1, h2] at h
    subst h
    decide
  by_cases h3 : c = '\n'
  · simp [h1, h2, h3] at h
    rcases h with rfl | rfl <;> decide
  by_cases h4 : c = '\t'
  · simp [h1, h2, h3, h4] at h
    rcases h with rfl | rfl <;> decide
  by_cases h5 : c = '\r'
  · simp [h1, h2, h3, h4, h5] at h
    rcases h with rfl | rfl <;> decide
  · simp [h1, h2, h3, h4, h5] at h
    subst h
    exact h3

theorem goQuote_no_newline (t : List Char) : '\n' ∉ goQuote t := by
  unfold goQuote
  intro h
  rcases List.mem_cons.mp h with hc | h
  · cases hc
  rcases List.mem_append.mp h with h | h
  · obtain ⟨piece, hpiece, hmem⟩ := List.mem_flatten.mp h
    obtain ⟨c, _, rfl⟩ := List.mem_map.mp hpiece
    exact goQuoteEsc_ne_newline c '\n' hmem rfl
  · simp at h

theorem digitCh_ne_newline (k : Nat) (h : k < 10) : digitCh k ≠ '\n' := by
  interval_cases k <;> decide

theorem natCharsAux_no_newline : ∀ (fuel n : Nat), '\n' ∉ natCharsAux fuel n := by
  intro fuel
  induction fuel with
  | zero =>
      intro n
      simp [natCharsAux]
  | succ fuel ih =>
      intro n
      unfold natCharsAux
      by_cases h : n < 10
      · simp only [h, if_true]
        intro hmem
        rcases List.mem_singleton.mp hmem with hc
        exact digitCh_ne_newline n h hc.symm
      · simp only [h, if_false]
        intro hmem
        rcases List.mem_append.mp hmem with hm | hm
        · exact ih (n / 10) hm
        · rcases List.mem_singleton.mp hm with hc
          exact digitCh_ne_newline (n % 10) (Nat.mod_lt _ (by norm_num)) hc.symm

theorem natChars_no_newline (n : Nat) : '\n' ∉ natChars n :=
  natCharsAux_no_newline (n + 1) n

theorem refDefFront_no_newline (i : Nat) (r : reference) (hnl : '\n' ∉ r.url) :
    '\n' ∉ refDefFront i r := by
  unfold refDefFront
  intro h
  rcases List.mem_append.mp h with h | h
  · rcases List.mem_append.mp h with h | h
    · rcases List.mem_cons.mp h with hc | h
      · cases hc
      · exact natChars_no_newline (i + 1) h
    · rcases List.mem_cons.mp h with hc | h
      · cases hc
      rcases List.mem_cons.mp h with hc | h
      · cases hc
      rcases List.mem_cons.mp h with hc | h
      · cases hc
      · exact hnl h
  · by_cases ht : r.title = []
    · simp [ht] at h
    · simp only [ht, if_false] at h
      rcases List.mem_cons.mp h with hc | h
      · cases hc
      · exact goQuote_no_newline r.title h

theorem refDefBlockGo_count :
    ∀ (refs : List reference) (i : Nat), (∀ r ∈ refs, '\n' ∉ r.url) →
      (refDefBlockGo i refs).count '\n' = refs.length := by
  intro refs
  induction refs with
  | nil =>
      intro i _
      simp [refDefBlockGo]
  | cons r rest ih =>
      intro i hnl
      have hline : (refDefLine i r).count '\n' = 1 := by
        rw [refDefLine, List.count_append]
        rw [List.count_eq_zero_of_not_mem (refDefFront_no_newline i r (hnl r (by simp)))]
        rfl
      rw [refDefBlockGo, List.count_append, hline,
        ih (i + 1) (fun x hx => hnl x (List.mem_cons_of_mem _ hx))]
      simp [Nat.add_comm]

/-- C3: in the inline→reference conversion, two link occurrences receive the
same reference integer iff their `(url, title)` pairs are byte-for-byte
identical (the parser guarantees NUL-free urls and titles, which the
hypotheses record); the collected reference list carries exactly one entry —
hence the rendered block exactly one definition line — per distinct pair
occurring among the links; and the transform's assembly collects exactly that
reference list. In particular two links to the same URL with different titles
get distinct integers and distinct definition lines. -/
theorem claim_c3_dedup_url_title (links : List linkInfo) (content : List Char)
    (hnul : ∀ l ∈ links, '\x00' ∉ l.url ∧ '\x00' ∉ l.title)
    (hnl : ∀ l ∈ links, '\n' ∉ l.url) :
    (∀ i j : Nat, i < links.length → j < links.length →
      ((assignLoop (links.map fun l => (l.url, l.title)) [] []).1.get? i =
          (assignLoop (links.map fun l => (l.url, l.title)) [] []).1.get? j ↔
        (links.map fun l => (l.url, l.title)).get? i =
          (links.map fun l => (l.url, l.title)).get? j))
    ∧ (∀ u t : List Char,
        ((assignLoop (links.map fun l => (l.url, l.title)) [] []).2.2).count ⟨u, t⟩ =
          if (u, t) ∈ links.map (fun l => (l.url, l.title)) then 1 else 0)
    ∧ ((refDefBlock ((assignLoop (links.map fun l => (l.url, l.title)) [] []).2.2)).count
          '\n' =
        ((assignLoop (links.map fun l => (l.url, l.title)) [] []).2.2).length)
    ∧ (mdrefLoop content (findRefDefRanges content) links 0 [] []).2 =
        (assignLoop (links.map fun l => (l.url, l.title)) [] []).2.2 := by
  obtain ⟨h1, h2, _, h4⟩ :=
    assignLoop_main (links.map fun l => (l.url, l.title)) [] [] tableReps_nil
  simp only [List.map_nil, List.nil_append] at h1 h2
  have hFA : faGo [] ((links.map fun l => (l.url, l.title)).map keyPair) =
      firstAppear ((links.map fun l => (l.url, l.title)).map keyPair) := rfl
  rw [hFA] at h1 h2
  have hsub : ∀ r ∈ (assignLoop (links.map fun l => (l.url, l.title)) [] []).2.2,
      (r.url, r.title) ∈ links.map fun l => (l.url, l.title) := by
    intro r hr
    rcases h4 r hr with hc | hc
    · cases hc
    · exact hc
  have hrnul : ∀ r ∈ (assignLoop (links.map fun l => (l.url, l.title)) [] []).2.2,
      '\x00' ∉ r.url ∧ '\x00' ∉ r.title := by
    intro r hr
    obtain ⟨l, hl, hlr⟩ := List.mem_map.mp (hsub r hr)
    have hu : l.url = r.url := congrArg Prod.fst hlr
    have ht : l.title = r.title := congrArg Prod.snd hlr
    exact ⟨hu ▸ (hnul l hl).1, ht ▸ (hnul l hl).2⟩
  have hrnl : ∀ r ∈ (assignLoop (links.map fun l => (l.url, l.title)) [] []).2.2,
      '\n' ∉ r.url := by
    intro r hr
    obtain ⟨l, hl, hlr⟩ := List.mem_map.mp (hsub r hr)
    have hu : l.url = r.url := congrArg Prod.fst hlr
    exact hu ▸ hnl l hl
  have hnd : ((assignLoop (links.map fun l => (l.url, l.title)) [] []).2.2).Nodup := by
    apply List.Nodup.of_map keyOfRef
    rw [h2]
    exact firstAppear_nodup _
  have hmemiff : ∀ u t : List Char, '\x00' ∉ u → '\x00' ∉ t →
      ((reference.mk u t) ∈ (assignLoop (links.map fun l => (l.url, l.title)) [] []).2.2 ↔
        (u, t) ∈ links.map fun l => (l.url, l.title)) := by
    intro u t hu _
    constructor
    · intro hmem
      exact hsub _ hmem
    · intro hmem
      have hk : refKey u t ∈ ((links.map fun l => (l.url, l.title)).map keyPair) :=
        List.mem_map.mpr ⟨(u, t), hmem, rfl⟩
      rw [← mem_firstAppear_iff, ← h2] at hk
      obtain ⟨r, hr, hkr⟩ := List.mem_map.mp hk
      obtain ⟨hru, hrt⟩ := refKey_inj (hrnul r hr).1 hu hkr
      have : r = reference.mk u t := by
        cases r
        simp only [keyOfRef] at hkr
        simp [reference.mk.injEq]
        exact ⟨hru, hrt⟩
      exact this ▸ hr
  refine ⟨?_, ?_, ?_, mdrefLoop_refs content (findRefDefRanges content) links 0 [] []⟩
  · intro i j hi hj
    have hgi := List.get?_map
      (fun o => idxOfK (firstAppear ((links.map fun l => (l.url, l.title)).map keyPair))
        (keyPair o) + 1) (links.map fun l => (l.url, l.title)) i
    have hgj := List.get?_map
      (fun o => idxOfK (firstAppear ((links.map fun l => (l.url, l.title)).map keyPair))
        (keyPair o) + 1) (links.map fun l => (l.url, l.title)) j
    obtain ⟨pi, hpi⟩ : ∃ a, (links.map fun l => (l.url, l.title)).get? i = some a :=
      ⟨_, List.get?_eq_get (by simpa using hi)⟩
    obtain ⟨pj, hpj⟩ : ∃ a, (links.map fun l => (l.url, l.title)).get? j = some a :=
      ⟨_, List.get?_eq_get (by simpa using hj)⟩
    have hpimem : pi ∈ links.map fun l => (l.url, l.title) := List.get?_mem hpi
    have hpjmem : pj ∈ links.map fun l => (l.url, l.title) := List.get?_mem hpj
    rw [h1, hgi, hgj, hpi, hpj]
    constructor
    · intro heq
      have heq2 : some (idxOfK
            (firstAppear ((links.map fun l => (l.url, l.title)).map keyPair))
            (keyPair pi) + 1) =
          some (idxOfK
            (firstAppear ((links.map fun l => (l.url, l.title)).map keyPair))
            (keyPair pj) + 1) := heq
      injection heq2 with heq3
      have hrank : idxOfK (firstAppear ((links.map fun l => (l.url, l.title)).map keyPair))
          (keyPair pi) =
          idxOfK (firstAppear ((links.map fun l => (l.url, l.title)).map keyPair))
            (keyPair pj) := Nat.add_right_cancel heq3
      have hkimem : keyPair pi ∈
          firstAppear ((links.map fun l => (l.url, l.title)).map keyPair) :=
        (mem_firstAppear_iff _ _).mpr (List.mem_map_of_mem _ hpimem)
      have hkjmem : keyPair pj ∈
          firstAppear ((links.map fun l => (l.url, l.title)).map keyPair) :=
        (mem_firstAppear_iff _ _).mpr (List.mem_map_of_mem _ hpjmem)
      have hkeq := idxOfK_inj hkimem hkjmem hrank
      obtain ⟨li, hli, hlip⟩ := List.mem_map.mp hpimem
      obtain ⟨lj, hlj, hljp⟩ := List.mem_map.mp hpjmem
      have hnuli := hnul li hli
      have hnulj := hnul lj hlj
      obtain ⟨hu, ht⟩ := @refKey_inj pi.1 pi.2 pj.1 pj.2
        (by rw [← hlip]; exact hnuli.1) (by rw [← hljp]; exact hnulj.1) hkeq
      exact congrArg some (Prod.ext hu ht)
    · intro heq
      rw [heq]
  · intro u t
    by_cases hmem : (u, t) ∈ links.map fun l => (l.url, l.title)
    · rw [if_pos hmem]
      obtain ⟨l, hl, hlp⟩ := List.mem_map.mp hmem
      have hu : l.url = u := congrArg Prod.fst hlp
      have ht : l.title = t := congrArg Prod.snd hlp
      refine List.count_eq_one_of_mem hnd ?_
      exact (hmemiff u t (hu ▸ (hnul l hl).1) (ht ▸ (hnul l hl).2)).mpr hmem
    · rw [if_neg hmem]
      apply List.count_eq_zero_of_not_mem
      intro hc
      exact hmem (hsub _ hc)
  · rw [refDefBlock]
    exact refDefBlockGo_count _ 0 hrnl

/-- Three concrete link occurrences: two identical `(url, title)` pairs and
one with the same url but a different title. -/
def sampleLinks : List linkInfo :=
  [⟨0, 1, chars "a", chars "u", []⟩,
   ⟨2, 3, chars "b", chars "u", chars "t"⟩,
   ⟨4, 5, chars "c", chars "u", []⟩]

/-- Witness for C3 on `sampleLinks`: each of the two distinct pairs gets
exactly one reference entry (and hence one definition line), an absent pair
gets none, and occurrences 0 and 2 (identical pairs, same url as occurrence 1
but different title) share their number. -/
theorem claim_c3_dedup_url_title_witness :
    ((assignLoop (sampleLinks.map fun l => (l.url, l.title)) [] []).2.2.count
        ⟨chars "u", []⟩ = 1)
    ∧ ((assignLoop (sampleLinks.map fun l => (l.url, l.title)) [] []).2.2.count
        ⟨chars "u", chars "t"⟩ = 1)
    ∧ ((assignLoop (sampleLinks.map fun l => (l.url, l.title)) [] []).2.2.count
        ⟨chars "v", []⟩ = 0)
    ∧ ((refDefBlock ((assignLoop (sampleLinks.map fun l => (l.url, l.title)) [] []).2.2)).count
          '\n' =
        ((assignLoop (sampleLinks.map fun l => (l.url, l.title)) [] []).2.2).length)
    ∧ ((assignLoop (sampleLinks.map fun l => (l.url, l.title)) [] []).1.get? 0 =
        (assignLoop (sampleLinks.map fun l => (l.url, l.title)) [] []).1.get? 2) := by
  obtain ⟨hA, hB, hC, _⟩ := claim_c3_dedup_url_title sampleLinks (chars "x")
    (by decide) (by decide)
  refine ⟨?_, ?_, ?_, hC, ?_⟩
  · exact (hB (chars "u") []).trans (by decide)
  · exact (hB (chars "u") (chars "t")).trans (by decide)
  · exact (hB (chars "v") []).trans (by decide)
  · exact (hA 0 2 (by decide) (by decide)).mpr (by decide)

/-! ## mdsidenote — markdown footnotes to Tufte sidenotes
(`src/cmd/mdsidenote/main.go`, lines 41-230 and helpers)

The goldmark footnote extension is the external collaborator: the transform is
parameterized by the footnote references (sorted by position, lines 122-125)
and definitions it reports; a definition's `content` field carries the
HTML that `renderFootnoteContentWithRefs` (external goldmark rendering,
lines 157-162) produced for it, and `rawContent` the raw markdown body.
Go maps (`defs`, `sidenoteNum`) are embedded as association lists; where the
code iterates a map to collect ranges, the ranges are subsequently sorted by
start (lines 169-188), which fixes the order up to ties. -/

/-- `footnoteRef` (mdsidenote/main.go lines 42-46). -/
structure footnoteRef where
  start : Nat
  stop : Nat
  index : Nat
deriving Repr, DecidableEq

/-- `footnoteDef` (mdsidenote/main.go lines 49-55); `content` is the rendered
HTML supplied by the external renderer. -/
structure footnoteDef where
  start : Nat
  stop : Nat
  ref : List Char
  content : List Char
  rawContent : List Char
deriving Repr, DecidableEq

/-- `linkDef` (mdsidenote/main.go lines 58-63). -/
structure linkDef where
  label : List Char
  url : List Char
  start : Nat
  stop : Nat
deriving Repr, DecidableEq

/-- Assoc-list read of the `defs` map (keyed by goldmark footnote index). -/
def lookupDef : List (Nat × footnoteDef) → Nat → Option footnoteDef
  | [], _ => none
  | (k, d) :: rest, k2 => if k = k2 then some d else lookupDef rest k2

/-- Insertion sort by `start`, embedding the `sort.Slice(..., Start < Start)`
calls (mdsidenote/main.go lines 169-188); Go's sort is unstable, so tie order
is unspecified there — ties do not arise in the instances the theorems use. -/
def insertByStart (r : ByteRange) : List ByteRange → List ByteRange
  | [] => [r]
  | x :: xs => if r.start < x.start then r :: x :: xs else x :: insertByStart r xs

def sortByStart (l : List ByteRange) : List ByteRange := l.foldr insertByStart []

/-- The regex character class `\s` (`[\t\n\f\r ]`; narrower than
`unicode.IsSpace`, which `isSpaceGo` embeds). -/
def isRegexSpace (c : Char) : Bool :=
  c == ' ' || c == '\t' || c == '\n' || c == '\x0C' || c == '\r'

/-- One anchored attempt of the link-definition regex
`^\[([^\]]+)\]:\s*(\S+).*$` (mdsidenote/main.go lines 362 and 437) at a line
start: a nonempty bracket-free label in `[…]:`, then greedy `\s*` (which may
cross newlines), a nonempty run of non-space characters (the url), and the
rest of that line. Returns the label, the url, and the match length. -/
def parseLinkDefAt (l : List Char) : Option (List Char × List Char × Nat) :=
  match l with
  | '[' :: rest =>
      let lbl := rest.takeWhile (fun x => x ≠ ']')
      if lbl = [] then none
      else
        match rest.drop lbl.length with
        | ']' :: ':' :: rest2 =>
            let sp := rest2.takeWhile isRegexSpace
            let rest3 := rest2.drop sp.length
            let url := rest3.takeWhile (fun c => !isRegexSpace c)
            if url = [] then none
            else
              let tailLen := ((rest3.drop url.length).takeWhile (fun c => c ≠ '\n')).length
              some (lbl, url, 1 + lbl.length + 2 + sp.length + url.length + tailLen)
        | _ => none
  | _ => none

/-- Embedding of `collectLinkDefs` (mdsidenote/main.go lines 359-381): scan
the source for leftmost, anchored-at-line-start matches of the
link-definition regex, resuming after each match; matches yield a `linkDef`
whose range runs from the match start to one past the match end (the
newline); labels starting `^` (footnote definitions) are skipped. Fuel is
the source length plus one (every step consumes at least one character). -/
def collectScanFuel : Nat → List Char → Nat → List linkDef
  | 0, _, _ => []
  | _ + 1, [], _ => []
  | fuel + 1, l, offset =>
      match parseLinkDefAt l with
      | some (lbl, url, mlen) =>
          let rest := collectScanFuel fuel (l.drop (mlen + 1)) (offset + mlen + 1)
          if lbl.head? = some '^' then rest
          else ⟨lbl, url, offset, offset + mlen + 1⟩ :: rest
      | none =>
          let skip := (l.takeWhile (fun c => c ≠ '\n')).length + 1
          collectScanFuel fuel (l.drop skip) (offset + skip)

def collectLinkDefs (source : List Char) : List linkDef :=
  collectScanFuel (source.length + 1) source 0

/-- Embedding of the scan of `findRefLinksInText` (mdsidenote/main.go lines
402-424, regex `\[([^\]]+)\]\[([^\]]*)\]|\[([^\]]+)\](?:\[([^\]]*)\])?`):
at each `[`, a bracketed nonempty text followed by `][u]` contributes `u`
(or the text when `u` is empty), a lone `[text]` contributes the text;
scanning resumes after each match, and positions without a match advance by
one character. Fuel is the text length (each step consumes at least one
character). -/
def refLinksScanFuel : Nat → List Char → List (List Char)
  | 0, _ => []
  | _ + 1, [] => []
  | fuel + 1, c :: rest =>
      if c = '[' then
        let t := rest.takeWhile (fun x => x ≠ ']')
        if t = [] then refLinksScanFuel fuel rest
        else
          match rest.drop t.length with
          | ']' :: rest2 =>
              match rest2 with
              | '[' :: rest3 =>
                  let u := rest3.takeWhile (fun x => x ≠ ']')
                  match rest3.drop u.length with
                  | ']' :: rest4 =>
                      (if u = [] then t else u) :: refLinksScanFuel fuel rest4
                  | _ => t :: refLinksScanFuel fuel rest2
              | _ => t :: refLinksScanFuel fuel rest2
          | _ => refLinksScanFuel fuel rest
      else refLinksScanFuel fuel rest

def findRefLinksInText (text : List Char) : List (List Char) :=
  refLinksScanFuel text.length text

/-- Ranges of the link-definition matches used by `findBodyRefLinks`
(mdsidenote/main.go lines 437-441; plain `FindAllIndex`, so the range stops
at the match end, without the newline, and footnote labels are not excluded
here). -/
def linkRangeScanFuel : Nat → List Char → Nat → List ByteRange
  | 0, _, _ => []
  | _ + 1, [], _ => []
  | fuel + 1, l, offset =>
      match parseLinkDefAt l with
      | some (_, _, mlen) =>
          ⟨(offset : Int), ((offset + mlen : Nat) : Int)⟩ ::
            linkRangeScanFuel fuel (l.drop (mlen + 1)) (offset + mlen + 1)
      | none =>
          let skip := (l.takeWhile (fun c => c ≠ '\n')).length + 1
          linkRangeScanFuel fuel (l.drop skip) (offset + skip)

/-- Embedding of `findBodyRefLinks` (mdsidenote/main.go lines 427-456). -/
def findBodyRefLinks (source : List Char) (defs : List (Nat × footnoteDef)) :
    List (List Char) :=
  let dr := defs.map (fun d => ByteRange.mk (d.2.start : Int) (d.2.stop : Int))
  let lr := linkRangeScanFuel (source.length + 1) source 0
  findRefLinksInText (excludeRangesT source 0 (sortByStart (dr ++ lr)))

/-- Go `strconv.Atoi` success test: optional sign then one or more digits
(overflow cannot occur for the label lengths in scope). -/
def isAtoiOk (s : List Char) : Bool :=
  match s with
  | [] => false
  | '+' :: rest => rest ≠ [] && rest.all (fun c => c.isDigit)
  | '-' :: rest => rest ≠ [] && rest.all (fun c => c.isDigit)
  | _ => s.all (fun c => c.isDigit)

/-- Literal-substring replacement (fuel = input length; each step consumes at
least one character). Embeds the `regexp.MustCompile(literal).ReplaceAllString`
calls of `renumberLinkRefs` whose patterns are quoted literals. -/
def replaceAllFuel : Nat → List Char → List Char → List Char → List Char
  | 0, l, _, _ => l
  | _ + 1, [], _, _ => []
  | fuel + 1, c :: rest, pat, rep =>
      if pat ≠ [] ∧ startsWithL (c :: rest) pat then
        rep ++ replaceAllFuel fuel ((c :: rest).drop pat.length) pat rep
      else c :: replaceAllFuel fuel rest pat rep

def replaceAllSub (l pat rep : List Char) : List Char :=
  replaceAllFuel l.length l pat rep

/-- The renumber map of `renumberLinkRefs` (mdsidenote/main.go lines 516-524):
numeric kept labels, in order, mapped to `1, 2, …`. -/
def buildRenumber : List (List Char) → Nat → List (List Char × List Char)
  | [], _ => []
  | lbl :: rest, n =>
      if isAtoiOk lbl then (lbl, natChars n) :: buildRenumber rest (n + 1)
      else buildRenumber rest n

/-- The usage-replacement loop of `renumberLinkRefs` (lines 530-535): for each
map entry with `old ≠ new`, replace every literal `][old]` by `][new]`. Go
iterates its map in unspecified order; the embedding iterates in insertion
order (the theorems only instantiate states where the order is immaterial). -/
def applyUsageRenumber : List (List Char × List Char) → List Char → List Char
  | [], text => text
  | (old, new) :: rest, text =>
      applyUsageRenumber rest
        (if old ≠ new then
          replaceAllSub text (']' :: '[' :: (old ++ [']'])) (']' :: '[' :: (new ++ [']']))
        else text)

/-- One definition-line replacement `^\[old\]:` → `[new]:` (lines 538-543). -/
def renumberDefLine (old new line : List Char) : List Char :=
  if startsWithL line ('[' :: (old ++ [']', ':'])) then
    '[' :: (new ++ [']', ':']) ++ line.drop (old.length + 3)
  else line

def joinNL (lines : List (List Char)) : List Char :=
  List.intercalate ['\n'] lines

def applyDefRenumber : List (List Char × List Char) → List Char → List Char
  | [], text => text
  | (old, new) :: rest, text =>
      applyDefRenumber rest
        (if old ≠ new then joinNL ((splitLinesGo text).map (renumberDefLine old new))
        else text)

/-- Embedding of `renumberLinkRefs` (mdsidenote/main.go lines 507-546). -/
def renumberLinkRefs (text : List Char) (linkDefs : List linkDef)
    (removed : List (List Char)) : List Char :=
  let keptLabels := (linkDefs.filter (fun ld => ld.label ∉ removed)).map linkDef.label
  let pairs := buildRenumber keptLabels 1
  applyDefRenumber pairs (applyUsageRenumber pairs text)

/-- The three-line sidenote HTML literal plus hidden-paren spans emitted per
matched reference (mdsidenote/main.go lines 205-211). -/
def sidenoteHTMLToken (num : Nat) (content : List Char) : List Char :=
  chars "\n<label for=\"sidenote-" ++ natChars num ++
    chars "\" class=\"margin-toggle sidenote-number\"></label>\n<input type=\"checkbox\" id=\"sidenote-" ++
    natChars num ++
    chars "\" class=\"margin-toggle\"/>\n<span class=\"sidenote\"><span class=\"hidden\">(</span>" ++
    content ++ chars "<span class=\"hidden\">)</span></span>"

/-- The output loop of mdsidenote's `transform` (main.go lines 190-227): per
reference, the exclusion-filtered gap then either the sidenote HTML (when the
index has a definition) or the reference's source bytes verbatim; after the
last reference, the exclusion-filtered remainder is link-renumbered, trimmed
to one trailing newline. -/
def mdsidenoteLoop (source : List Char) (snNum : List (Nat × Nat))
    (defs : List (Nat × footnoteDef)) (linkDefs : List linkDef)
    (removed : List (List Char)) (rngs : List ByteRange) :
    List footnoteRef → Nat → List Char
  | [], lastEnd =>
      rtrimNL (renumberLinkRefs
        (excludeRangesT (source.drop lastEnd) lastEnd rngs) linkDefs removed) ++ ['\n']
  | ref :: restR, lastEnd =>
      excludeRangesT ((source.take ref.start).drop lastEnd) lastEnd rngs ++
        (match lookupDef defs ref.index with
          | some d => sidenoteHTMLToken ((lookupNat snNum ref.index).getD 0) d.content
          | none => (source.take ref.stop).drop ref.start) ++
        mdsidenoteLoop source snNum defs linkDefs removed rngs restR ref.stop

/-- Embedding of mdsidenote's `transform` (main.go lines 65-230) downstream of
the parser: `refs` is the position-sorted reference list, `defs` the
index-keyed definition map with externally rendered `content`. -/
def mdsidenoteTransform (refs : List footnoteRef) (defs : List (Nat × footnoteDef))
    (content : List Char) : List Char :=
  let linkDefs := collectLinkDefs content
  let snNum := sidenoteAssign (refs.map footnoteRef.index) [] 1
  let footnoteLabels := (defs.map (fun d => findRefLinksInText d.2.rawContent)).flatten
  let bodyRefs := findBodyRefLinks content defs
  let removed := footnoteLabels.filter (fun l => l ∉ bodyRefs)
  let defRanges :=
    sortByStart (defs.map (fun d => ByteRange.mk (d.2.start : Int) (d.2.stop : Int)))
  let linkDefRanges :=
    sortByStart ((linkDefs.filter (fun ld => ld.label ∈ removed)).map
      (fun ld => ByteRange.mk (ld.start : Int) (ld.stop : Int)))
  let allRanges := sortByStart (defRanges ++ linkDefRanges)
  mdsidenoteLoop content snNum defs linkDefs removed allRanges refs 0

/-- Well-formedness of a position-sorted reference list as guaranteed by
`findFootnoteRefExtent` (mdsidenote/main.go lines 264-289) and the sort at
lines 122-125: ranges are chained left to right, in bounds, and each ends on
the `]` that closes `[^label]`. -/
def refChainWF (source : List Char) : List footnoteRef → Nat → Bool
  | [], lastEnd => decide (lastEnd ≤ source.length)
  | r :: rest, lastEnd =>
      decide (lastEnd ≤ r.start) && decide (r.start < r.stop) &&
        decide (r.stop ≤ source.length) &&
        decide (source[r.stop - 1]? = some ']') &&
        refChainWF source rest r.stop

theorem renumberLinkRefs_nil (text : List Char) (removed : List (List Char)) :
    renumberLinkRefs text [] removed = text := rfl

theorem rtrimNL_append (a b : List Char) (ha : a.getLast? ≠ some '\n') :
    rtrimNL (a ++ b) = a ++ rtrimNL b := by
  unfold rtrimNL
  rw [List.reverse_append, List.dropWhile_append]
  by_cases hb : (b.reverse.dropWhile (fun c => c == '\n')).isEmpty
  · simp only [hb, if_true]
    have hb' : b.reverse.dropWhile (fun c => c == '\n') = [] := by
      simpa [List.isEmpty_iff] using hb
    rw [hb', List.reverse_nil, List.append_nil]
    cases haa : a.reverse with
    | nil =>
        have : a = [] := by simpa using congrArg List.reverse haa
        simp [this]
    | cons c cs =>
        have hc : a.getLast? = some c := by rw [← List.head?_reverse, haa]; rfl
        have hcne : (c == '\n') = false := by
          cases hcc : (c == '\n') with
          | false => rfl
          | true =>
              exact absurd (by rw [hc, show c = '\n' from by simpa using hcc]) ha
        have hdw : List.dropWhile (fun x => x == '\n') (c :: cs) = c :: cs := by
          simp [List.dropWhile_cons, hcne]
        rw [hdw, ← haa, List.reverse_reverse]
  · rw [Bool.not_eq_true] at hb
    simp only [hb, Bool.false_eq_true, if_false]
    rw [List.reverse_append, List.reverse_reverse]

theorem getLast?_dropTake (l : List Char) (a b : Nat) (ha : a < b)
    (hb : b ≤ l.length) :
    ((l.take b).drop a).getLast? = l[b - 1]? := by
  have h1 : (l.take b).drop a ≠ [] := by
    apply List.ne_nil_of_length_pos
    rw [List.length_drop, List.length_take]
    omega
  have h2 : ((l.take b).drop a).getLast? = (l.take b).getLast? := by
    conv_rhs => rw [← List.take_append_drop a (l.take b)]
    rw [List.getLast?_append_of_ne_nil _ h1]
  rw [h2, List.getLast?_eq_getElem? (l.take b), List.length_take]
  have hmin : min b l.length = b := by omega
  rw [hmin, List.getElem?_take, if_pos (by omega)]

theorem dropTake_chain (l : List Char) (a b c : Nat) (hab : a ≤ b) (hbc : b ≤ c) :
    (l.take b).drop a ++ (l.take c).drop b = (l.take c).drop a := by
  have h := @drop_split (l.take c) a b hab
  rw [List.take_take] at h
  have hmin : min b c = b := by omega
  rw [hmin] at h
  exact h.symm

/-- With no footnote definitions, no link definitions and no ranges, the
mdsidenote output loop reproduces the source from the cursor on, trimmed to
one trailing newline (every reference takes the defless verbatim branch). -/
theorem mdsidenoteLoop_empty (source : List Char) (snNum : List (Nat × Nat))
    (removed : List (List Char)) :
    ∀ (refs : List footnoteRef) (lastEnd : Nat),
      refChainWF source refs lastEnd = true →
      mdsidenoteLoop source snNum [] [] removed [] refs lastEnd =
        rtrimNL (source.drop lastEnd) ++ ['\n'] := by
  intro refs
  induction refs with
  | nil =>
      intro lastEnd _
      show rtrimNL (renumberLinkRefs
        (excludeRangesT (source.drop lastEnd) lastEnd []) [] removed) ++ ['\n'] = _
      rw [excludeRangesT_nil_ranges, renumberLinkRefs_nil]
  | cons r rest ih =>
      intro lastEnd h
      simp only [refChainWF, Bool.and_eq_true, decide_eq_true_eq] at h
      obtain ⟨⟨⟨⟨h1, h2⟩, h3⟩, h4⟩, h5⟩ := h
      show excludeRangesT ((source.take r.start).drop lastEnd) lastEnd [] ++
        ((source.take r.stop).drop r.start) ++
        mdsidenoteLoop source snNum [] [] removed [] rest r.stop = _
      rw [ih r.stop h5, excludeRangesT_nil_ranges]
      have hchain : (source.take r.start).drop lastEnd ++ (source.take r.stop).drop r.start
          = (source.take r.stop).drop lastEnd :=
        dropTake_chain source lastEnd r.start r.stop h1 (le_of_lt h2)
      have hsplit : source.drop lastEnd =
          (source.take r.stop).drop lastEnd ++ source.drop r.stop :=
        @drop_split source lastEnd r.stop (by omega)
      have hlast : ((source.take r.stop).drop lastEnd).getLast? = some ']' := by
        rw [getLast?_dropTake source lastEnd r.stop (by omega) h3]
        exact h4
      rw [hsplit, rtrimNL_append _ _ (by rw [hlast]; decide)]
      rw [← hchain]
      simp [List.append_assoc]

/-- With no footnote definitions and no link-definition lines in the source,
the whole transform is source-preserving modulo trailing-newline trim. -/
theorem mdsidenoteTransform_empty_defs (content : List Char)
    (refs : List footnoteRef) (hwf : refChainWF content refs 0 = true)
    (hld : collectLinkDefs content = []) :
    mdsidenoteTransform refs [] content = rtrimNL content ++ ['\n'] := by
  unfold mdsidenoteTransform
  simp only [hld, List.map_nil, List.flatten_nil, List.filter_nil, List.nil_append]
  show mdsidenoteLoop content (sidenoteAssign (refs.map footnoteRef.index) [] 1)
      [] [] [] (sortByStart (sortByStart [] ++ sortByStart [])) refs 0 = _
  have hs : sortByStart (sortByStart [] ++ sortByStart []) = ([] : List ByteRange) := rfl
  rw [hs, mdsidenoteLoop_empty content _ _ refs 0 hwf, List.drop_zero]

/-- C9: a footnote reference with no matching definition is emitted
byte-for-byte as it appeared in the source (mdsidenote/main.go lines
212-215): in any transform state, the output loop copies the reference's
source bytes verbatim after the exclusion-filtered gap; and when no
reference has a definition (and the source has no link-definition lines),
the whole output is the source unchanged apart from trailing-newline
normalization — nothing is renumbered and no definition entry is emitted
for the reference. -/
theorem claim_c9_defless_ref_verbatim (content : List Char)
    (refs : List footnoteRef) (snNum : List (Nat × Nat))
    (defs : List (Nat × footnoteDef)) (linkDefs : List linkDef)
    (removed : List (List Char)) (rngs : List ByteRange) (ref : footnoteRef)
    (restR : List footnoteRef) (lastEnd : Nat)
    (hnodef : lookupDef defs ref.index = none)
    (hwf : refChainWF content refs 0 = true)
    (hld : collectLinkDefs content = []) :
    (mdsidenoteLoop content snNum defs linkDefs removed rngs (ref :: restR) lastEnd =
      excludeRangesT ((content.take ref.start).drop lastEnd) lastEnd rngs ++
        ((content.take ref.stop).drop ref.start) ++
        mdsidenoteLoop content snNum defs linkDefs removed rngs restR ref.stop) ∧
    mdsidenoteTransform refs [] content = rtrimNL content ++ ['\n'] := by
  constructor
  · show excludeRangesT ((content.take ref.start).drop lastEnd) lastEnd rngs ++
      (match lookupDef defs ref.index with
        | some d => sidenoteHTMLToken ((lookupNat snNum ref.index).getD 0) d.content
        | none => (content.take ref.stop).drop ref.start) ++
      mdsidenoteLoop content snNum defs linkDefs removed rngs restR ref.stop = _
    rw [hnodef]
  · exact mdsidenoteTransform_empty_defs content refs hwf hld

theorem claim_c9_defless_ref_verbatim_witness :
    mdsidenoteTransform [⟨1, 5, 1⟩] [] (chars "A[^1]\n") = chars "A[^1]\n" :=
  ((claim_c9_defless_ref_verbatim (chars "A[^1]\n") [⟨1, 5, 1⟩] [] [] [] [] []
    ⟨1, 5, 1⟩ [] 0 rfl (by decide) (by decide)).2).trans (by decide)

/-! ## mdfootnote — Tufte sidenotes back to Markdown footnotes
(`src/cmd/mdfootnote/main.go`)

This converter is regex-driven, so the whole match pipeline is embedded; the
only external collaborator is `htmltomd.ConvertString` (line 102), modelled
as a parameter `conv` (on error the code falls back to the input, so some
total function always describes the conversion applied). `fmt.Sscanf`'s
`%d` parse of the digit capture is `digitsToNat` (the numbers in scope are
far below the `int` overflow edge). The `footnotes[sn.number-1]` write
(line 113) is modelled by the `Option`-valued `setFootnote`: `none` is the
uncatchable index-out-of-range panic that a `sidenote-0` label triggers. -/

/-- The literal segments of `sidenotePattern` (mdfootnote/main.go lines
41-45). -/
def sidenotePrefix1 : List Char := chars "\n<label for=\"sidenote-"

def sidenoteMid1 : List Char :=
  chars "\" class=\"margin-toggle sidenote-number\"></label>\n<input type=\"checkbox\" id=\"sidenote-"

def sidenoteMid2 : List Char := chars "\" class=\"margin-toggle\"/>\n<span class=\"sidenote\">"

def spanClose : List Char := chars "</span>"

/-- Backtracking search of the span-content tail
`([^<]*(?:<[^>]+>[^<]*)*)</span>`: from a stop point (at a `<` or the end),
either close with the literal `</span>` here or consume one more
`<[^>]+>[^<]*` repetition; the greedy star prefers the deepest stop point
that still closes. `n` accumulates the content length; returns the content
length of the chosen stop, `none` if no stop closes. -/
def spanScan : Nat → List Char → Nat → Option Nat
  | 0, _, _ => none
  | fuel + 1, s, n =>
      let here := if startsWithL s spanClose then some n else none
      match s with
      | '<' :: t =>
          let u := t.takeWhile (fun c => c ≠ '>')
          if u = [] then here
          else
            match t.drop u.length with
            | '>' :: t2 =>
                let c := t2.takeWhile (fun x => x ≠ '<')
                (spanScan fuel (t2.drop c.length) (n + 1 + u.length + 1 + c.length)).orElse
                  (fun _ => here)
            | _ => here
      | _ => here

/-- One anchored attempt of `sidenotePattern` at a position: the three
literal segments, the two digit runs (`\d+`, forced to stop at the following
`"`), and the span-content search. Returns the number capture, the content
capture and the total match length. -/
def matchSidenoteAt (l : List Char) : Option (List Char × List Char × Nat) :=
  if startsWithL l sidenotePrefix1 then
    let l1 := l.drop sidenotePrefix1.length
    let d1 := l1.takeWhile Char.isDigit
    if d1 = [] then none
    else
      let l2 := l1.drop d1.length
      if startsWithL l2 sidenoteMid1 then
        let l3 := l2.drop sidenoteMid1.length
        let d2 := l3.takeWhile Char.isDigit
        if d2 = [] then none
        else
          let l4 := l3.drop d2.length
          if startsWithL l4 sidenoteMid2 then
            let l5 := l4.drop sidenoteMid2.length
            let c0 := l5.takeWhile (fun c => c ≠ '<')
            match spanScan (l5.length + 1) (l5.drop c0.length) c0.length with
            | some clen =>
                some (d1, l5.take clen,
                  sidenotePrefix1.length + d1.length + sidenoteMid1.length +
                    d2.length + sidenoteMid2.length + clen + spanClose.length)
            | none => none
          else none
      else none
  else none

/-- A `sidenote` (mdfootnote/main.go lines 33-38) as the scanner reports it:
the digit capture is kept textual, `number` is its `Sscanf` parse. -/
structure snMatch where
  digits : List Char
  content : List Char
  start : Nat
  stop : Nat
deriving Repr, DecidableEq

/-- `FindAllStringSubmatchIndex` scan: leftmost matches, resuming after each
match, advancing one character where no match starts. -/
def snScanFuel : Nat → List Char → Nat → List snMatch
  | 0, _, _ => []
  | _ + 1, [], _ => []
  | fuel + 1, c :: rest, pos =>
      match matchSidenoteAt (c :: rest) with
      | some (d, sc, mlen) =>
          ⟨d, sc, pos, pos + mlen⟩ ::
            snScanFuel fuel ((c :: rest).drop mlen) (pos + mlen)
      | none => snScanFuel fuel rest (pos + 1)

def findSidenotes (content : List Char) : List snMatch :=
  snScanFuel (content.length + 1) content 0

/-- `fmt.Sscanf(numStr, "%d", &num)` on the all-digit capture. -/
def digitsToNat (l : List Char) : Nat :=
  l.foldl (fun n c => n * 10 + (c.toNat - 48)) 0

/-- The two alternatives of `hiddenSpanPattern` (mdfootnote/main.go line 48):
`<span class="hidden">` then `(` or `)`, then `[^<]*` (forced to the next
`<`), then the literal `</span>`. Returns the match length. -/
def matchHiddenAt (l : List Char) : Option Nat :=
  if startsWithL l (chars "<span class=\"hidden\">(") ∨
      startsWithL l (chars "<span class=\"hidden\">)") then
    let l1 := l.drop 22
    let c := l1.takeWhile (fun x => x ≠ '<')
    if startsWithL (l1.drop c.length) spanClose then
      some (22 + c.length + spanClose.length)
    else none
  else none

/-- `hiddenSpanPattern.ReplaceAllString(htmlContent, "")` (line 97). -/
def removeHiddenFuel : Nat → List Char → List Char
  | 0, l => l
  | _ + 1, [] => []
  | fuel + 1, c :: rest =>
      match matchHiddenAt (c :: rest) with
      | some mlen => removeHiddenFuel fuel ((c :: rest).drop mlen)
      | none => c :: removeHiddenFuel fuel rest

def removeHiddenSpans (l : List Char) : List Char := removeHiddenFuel l.length l

/-- The footnote-slot write (mdfootnote/main.go lines 110-113): grow the
array with `""` up to `num` entries, then write `footnotes[num-1]`. For
`num = 0` the loop does not grow and the index `-1` is an uncatchable
runtime panic: `none`. -/
def setFootnote (fns : List (List Char)) (num : Nat) (c : List Char) :
    Option (List (List Char)) :=
  if num = 0 then none
  else some ((fns ++ List.replicate (num - fns.length) []).set (num - 1) c)

/-- The markdown content stored for one sidenote (lines 95-107): hidden-paren
spans removed, trimmed, converted by the external `conv`, trimmed again. -/
def snMdContent (conv : List Char → List Char) (sn : snMatch) : List Char :=
  trimSpaceGo (conv (trimSpaceGo (removeHiddenSpans sn.content)))

/-- The output loop of mdfootnote's `transform` (lines 87-121): per sidenote,
the verbatim gap and the `[^%d]` token with the re-rendered source number,
threading the footnote array; after the last sidenote, the remainder with
trailing newlines trimmed. `none` propagates the `footnotes[-1]` panic. -/
def mdfootnoteLoop (conv : List Char → List Char) (content : List Char) :
    List snMatch → Nat → List (List Char) → Option (List Char × List (List Char))
  | [], lastEnd, fns => some (rtrimNL (content.drop lastEnd), fns)
  | sn :: rest, lastEnd, fns =>
      match setFootnote fns (digitsToNat sn.digits) (snMdContent conv sn) with
      | none => none
      | some fns2 =>
          match mdfootnoteLoop conv content rest sn.stop fns2 with
          | none => none
          | some (tailBody, fnsOut) =>
              some ((content.take sn.start).drop lastEnd ++
                ('[' :: '^' :: natChars (digitsToNat sn.digits) ++ [']']) ++ tailBody,
                fnsOut)

/-- The appended definition block (lines 124-130): a `\n[^%d]: %s` line per
nonempty slot, indices starting at 1, between two written newlines. -/
def fnLines : Nat → List (List Char) → List Char
  | _, [] => []
  | i, fn :: rest =>
      (if fn = [] then [] else '\n' :: ('[' :: '^' :: natChars i ++ ']' :: ':' :: ' ' :: fn)) ++
        fnLines (i + 1) rest

/-- Embedding of mdfootnote's `transform` (main.go lines 50-133); `none`
models the uncatchable panic. Zero matches return the input verbatim (lines
53-55). The scanner emits matches in strictly increasing positions, so the
defensive `sort.Slice` at lines 78-80 is the identity. -/
def mdfootnoteTransformChecked (conv : List Char → List Char)
    (content : List Char) : Option (List Char) :=
  match findSidenotes content with
  | [] => some content
  | sn :: rest =>
      match mdfootnoteLoop conv content (sn :: rest) 0 [] with
      | none => none
      | some (body, fns) => some (body ++ '\n' :: fnLines 1 fns ++ ['\n'])

/-- C1: the idempotency contract fails on the sidenote→footnote converter:
when the first matched sidenote carries number 0 (a `sidenote-0` label), the
slot write `footnotes[sn.number-1]` (mdfootnote/main.go lines 110-113) grows
the array to length 0 and indexes `-1` — an uncatchable runtime panic, so
the transform produces no bytes at all and `transform(transform(x)) =
transform(x)` cannot hold for such `x`. -/
theorem claim_c1_idempotency_panics (conv : List Char → List Char)
    (content : List Char) (sn : snMatch) (rest : List snMatch)
    (hscan : findSidenotes content = sn :: rest)
    (h0 : digitsToNat sn.digits = 0) :
    mdfootnoteTransformChecked conv content = none := by
  have hsf : setFootnote [] (digitsToNat sn.digits) (snMdContent conv sn) = none := by
    rw [h0]
    rfl
  have hloop : mdfootnoteLoop conv content (sn :: rest) 0 [] = none := by
    simp only [mdfootnoteLoop, hsf]
  simp only [mdfootnoteTransformChecked, hscan, hloop]

set_option maxRecDepth 8192 in
theorem claim_c1_idempotency_panics_witness :
    mdfootnoteTransformChecked id
      (chars "B" ++ sidenoteHTMLToken 0 (chars "z") ++ chars "\n") = none :=
  claim_c1_idempotency_panics id _
    ⟨chars "0", chars "<span class=\"hidden\">(</span>z<span class=\"hidden\">)</span>",
      1, 225⟩ [] (by decide) (by decide)

/-- C5 counterexample: with zero matching constructs (no reference-style
links), mdref still deletes the existing reference-definition line, so the
output is not the input modulo trailing-newline normalization. -/
theorem claim_c5_counterexample :
    mdrefTransform [] (chars "A\n[1]: u\n") = chars "A\n" ∧
      mdrefTransform [] (chars "A\n[1]: u\n") ≠ chars "A\n[1]: u\n" ∧
      mdrefTransform [] (chars "A\n[1]: u\n") ≠
        rtrimNL (chars "A\n[1]: u\n") ++ ['\n'] := by
  refine ⟨by decide, by decide, by decide⟩

/-- C5 (amended): the sidenote→footnote converter with zero matches is a
true byte-for-byte no-op (no trailing-newline normalization either); the
other converters are no-ops modulo trailing-newline normalization only when
the document also contains none of the definition lines they remove
(reference definitions for mdref/mdinline, link-definition lines for
mdsidenote). -/
theorem claim_c5_amended_no_op (conv : List Char → List Char)
    (c1 c2 c3 : List Char)
    (hm : findSidenotes c1 = [])
    (hr : findRefDefRanges c2 = [])
    (hld : collectLinkDefs c3 = []) :
    mdfootnoteTransformChecked conv c1 = some c1 ∧
      mdrefTransform [] c2 = rtrimNL c2 ++ ['\n'] ∧
      mdinlineTransform [] c2 = rtrimNL c2 ++ ['\n'] ∧
      mdsidenoteTransform [] [] c3 = rtrimNL c3 ++ ['\n'] := by
  refine ⟨?_, ?_, ?_, ?_⟩
  · simp only [mdfootnoteTransformChecked, hm]
  · simp [mdrefTransform, mdrefLoop, hr, excludeRangesT_nil_ranges]
  · simp [mdinlineTransform, mdinlineLoop, hr, excludeRangesT_nil_ranges]
  · exact mdsidenoteTransform_empty_defs c3 [] (by simp [refChainWF]) hld

theorem claim_c5_amended_no_op_witness :
    mdfootnoteTransformChecked id (chars "xyz") = some (chars "xyz") ∧
      mdrefTransform [] (chars "Hi\n") = chars "Hi\n" :=
  ⟨(claim_c5_amended_no_op id (chars "xyz") (chars "Hi\n") (chars "Hi\n")
      (by decide) (by decide) (by decide)).1,
    ((claim_c5_amended_no_op id (chars "xyz") (chars "Hi\n") (chars "Hi\n")
      (by decide) (by decide) (by decide)).2.1).trans (by decide)⟩

/-- C6 counterexample: mdfootnote's zero-match early return (main.go lines
53-55) hands back the input verbatim, so an input without a trailing
newline yields an output without one. -/
theorem claim_c6_counterexample :
    mdfootnoteTransformChecked id (chars "abc") = some (chars "abc") ∧
      endsOneNL (chars "abc") = false := by
  refine ⟨by decide, by decide⟩

theorem sidenoteHTMLToken_getLast (num : Nat) (c : List Char) :
    (sidenoteHTMLToken num c).getLast? = some '>' := by
  unfold sidenoteHTMLToken
  rw [List.getLast?_append_of_ne_nil _ (by decide)]
  decide

theorem sidenoteHTMLToken_ne_nil (num : Nat) (c : List Char) :
    sidenoteHTMLToken num c ≠ [] := by
  unfold sidenoteHTMLToken
  intro h
  have hlen := congrArg List.length h
  rw [List.length_append, List.length_nil] at hlen
  have h36 : (chars "<span class=\"hidden\">)</span></span>").length = 36 := by decide
  omega

/-- Every mdsidenote output ends with exactly one trailing newline: each
emitted token ends in `>` or `]` and the remainder is trimmed then given
one newline. -/
theorem mdsidenoteLoop_endsOne (source : List Char) (snNum : List (Nat × Nat))
    (defs : List (Nat × footnoteDef)) (linkDefs : List linkDef)
    (removed : List (List Char)) (rngs : List ByteRange) :
    ∀ (refs : List footnoteRef) (lastEnd : Nat),
      refChainWF source refs lastEnd = true →
      endsOneNL (mdsidenoteLoop source snNum defs linkDefs removed rngs refs lastEnd) =
        true := by
  intro refs
  induction refs with
  | nil =>
      intro lastEnd _
      have h := endsOneNL_rtrim_append []
        (renumberLinkRefs (excludeRangesT (source.drop lastEnd) lastEnd rngs)
          linkDefs removed) (by simp)
      simpa [mdsidenoteLoop] using h
  | cons r rest ih =>
      intro lastEnd h
      simp only [refChainWF, Bool.and_eq_true, decide_eq_true_eq] at h
      obtain ⟨⟨⟨⟨h1, h2⟩, h3⟩, h4⟩, h5⟩ := h
      simp only [mdsidenoteLoop]
      refine endsOneNL_append_left _ _ ?_ (ih r.stop h5)
      cases hld : lookupDef defs r.index with
      | some d =>
          simp only [hld]
          rw [List.getLast?_append_of_ne_nil _
              (sidenoteHTMLToken_ne_nil ((lookupNat snNum r.index).getD 0) d.content),
            sidenoteHTMLToken_getLast]
          simp
      | none =>
          simp only [hld]
          have hne : (source.take r.stop).drop r.start ≠ [] := by
            apply List.ne_nil_of_length_pos
            rw [List.length_drop, List.length_take]
            omega
          rw [List.getLast?_append_of_ne_nil _ hne,
            getLast?_dropTake source r.start r.stop h2 h3, h4]
          simp

/-- A successful mdfootnote run with at least one match ends with a newline
(the definition block's closing `WriteString("\n")`, main.go line 130). -/
theorem mdfootnote_matched_getLast (conv : List Char → List Char)
    (content out : List Char)
    (hne : findSidenotes content ≠ [])
    (hsome : mdfootnoteTransformChecked conv content = some out) :
    out.getLast? = some '\n' := by
  unfold mdfootnoteTransformChecked at hsome
  cases hs : findSidenotes content with
  | nil => exact absurd hs hne
  | cons sn rest =>
      rw [hs] at hsome
      have hsome2 : (match mdfootnoteLoop conv content (sn :: rest) 0 [] with
          | none => none
          | some (body, fns) => some (body ++ '\n' :: fnLines 1 fns ++ ['\n'])) =
            some out := hsome
      cases hl : mdfootnoteLoop conv content (sn :: rest) 0 [] with
      | none =>
          rw [hl] at hsome2
          cases hsome2
      | some p =>
          obtain ⟨body, fns⟩ := p
          rw [hl] at hsome2
          have hout : out = body ++ '\n' :: fnLines 1 fns ++ ['\n'] := by
            injection hsome2 with h1
            exact h1.symm
          rw [hout]
          exact List.getLast?_concat _

/-- mdref's whole output (body plus optional definition block) ends with
exactly one newline, given the parser guarantee that urls are
newline-free. -/
theorem mdrefTransform_endsOne (links : List linkInfo) (content : List Char)
    (hnl : ∀ l ∈ links, '\n' ∉ l.url) :
    endsOneNL (mdrefTransform links content) = true := by
  have hurls : ∀ r ∈ (mdrefLoop content (findRefDefRanges content) links 0 [] []).2,
      '\n' ∉ r.url := by
    intro r hr
    rw [mdrefLoop_refs] at hr
    obtain ⟨_, _, _, h4⟩ :=
      assignLoop_main (links.map fun l => (l.url, l.title)) [] [] tableReps_nil
    rcases h4 r hr with h | h
    · cases h
    · obtain ⟨l, hl, he⟩ := List.mem_map.mp h
      have hu : r.url = l.url := by
        have := congrArg Prod.fst he
        simpa using this.symm
      rw [hu]
      exact hnl l hl
  simp only [mdrefTransform]
  by_cases h2 : (mdrefLoop content (findRefDefRanges content) links 0 [] []).2 = []
  · rw [if_pos h2]
    exact mdrefLoop_endsOne content _ links 0 [] []
  · rw [if_neg h2]
    rw [show (mdrefLoop content (findRefDefRanges content) links 0 [] []).1 ++
        '\n' :: refDefBlock (mdrefLoop content (findRefDefRanges content) links 0 [] []).2 =
        ((mdrefLoop content (findRefDefRanges content) links 0 [] []).1 ++ ['\n']) ++
          refDefBlockGo 0 (mdrefLoop content (findRefDefRanges content) links 0 [] []).2 by
      simp [refDefBlock]]
    exact refDefBlockGo_endsOne _ _ 0 h2 hurls

/-- C6 (amended): mdref, mdinline and mdsidenote always end with exactly one
trailing newline (for mdref given the parser guarantee of newline-free
urls, for mdsidenote given well-formed reference extents); mdfootnote ends
with a newline whenever at least one sidenote matched, but returns the
input verbatim — possibly with no trailing newline — on zero matches. -/
theorem claim_c6_amended_trailing_newline
    (links : List linkInfo) (content : List Char)
    (links2 : List linkInfo) (content2 : List Char)
    (refs : List footnoteRef) (defs : List (Nat × footnoteDef)) (content3 : List Char)
    (conv : List Char → List Char) (content4 out : List Char)
    (hnl : ∀ l ∈ links, '\n' ∉ l.url)
    (hwf : refChainWF content3 refs 0 = true)
    (hne : findSidenotes content4 ≠ [])
    (hsome : mdfootnoteTransformChecked conv content4 = some out) :
    endsOneNL (mdrefTransform links content) = true ∧
      endsOneNL (mdinlineTransform links2 content2) = true ∧
      endsOneNL (mdsidenoteTransform refs defs content3) = true ∧
      out.getLast? = some '\n' := by
  refine ⟨mdrefTransform_endsOne links content hnl, ?_, ?_,
    mdfootnote_matched_getLast conv content4 out hne hsome⟩
  · exact mdinlineLoop_endsOne content2 _ links2 0
  · simp only [mdsidenoteTransform]
    exact mdsidenoteLoop_endsOne content3 _ _ _ _ _ refs 0 hwf

set_option maxRecDepth 8192 in
theorem claim_c6_amended_trailing_newline_witness :
    endsOneNL (mdrefTransform [] (chars "a")) = true ∧
      (chars "B[^2]\n\n[^2]: z\n").getLast? = some '\n' :=
  ⟨(claim_c6_amended_trailing_newline [] (chars "a") [] (chars "a") [] [] (chars "a")
      id (chars "B" ++ sidenoteHTMLToken 2 (chars "z") ++ chars "\n")
      (chars "B[^2]\n\n[^2]: z\n")
      (by simp) (by decide) (by decide) (by decide)).1,
    (claim_c6_amended_trailing_newline [] (chars "a") [] (chars "a") [] [] (chars "a")
      id (chars "B" ++ sidenoteHTMLToken 2 (chars "z") ++ chars "\n")
      (chars "B[^2]\n\n[^2]: z\n")
      (by simp) (by decide) (by decide) (by decide)).2.2.2⟩

set_option maxRecDepth 8192 in
/-- C7 counterexample: a document whose only (hence first-appearing)
sidenote is numbered 2 in the source keeps footnote number 2 in the output
— the sidenote→footnote direction is not positional. -/
theorem claim_c7_counterexample :
    mdfootnoteTransformChecked id
        (chars "B" ++ sidenoteHTMLToken 2 (chars "z") ++ chars "\n") =
      some (chars "B[^2]\n\n[^2]: z\n") ∧
      (findSidenotes (chars "B" ++ sidenoteHTMLToken 2 (chars "z") ++ chars "\n")).length
        = 1 := by
  refine ⟨by decide, by decide⟩

theorem lookupNat_rank :
    ∀ (m : List (Nat × Nat)), (m.map Prod.fst).Nodup →
      ∀ (j : Nat) (_hj : j < m.length) (hf : j < (m.map Prod.fst).length)
        (hs : j < (m.map Prod.snd).length),
      lookupNat m ((m.map Prod.fst).get ⟨j, hf⟩) =
        some ((m.map Prod.snd).get ⟨j, hs⟩) := by
  intro m
  induction m with
  | nil =>
      intro _ j hj hf _
      exact absurd hf (by simp)
  | cons a rest ih =>
      intro hnd j hj hf hs
      obtain ⟨k2, v⟩ := a
      have hnd2 : (k2 :: rest.map Prod.fst).Nodup := by
        rw [List.map_cons] at hnd
        exact hnd
      obtain ⟨hk2, hnd'⟩ := List.nodup_cons.mp hnd2
      cases j with
      | zero => simp [lookupNat]
      | succ j =>
          have hj' : j < rest.length := by simpa using hj
          have hf' : j < (rest.map Prod.fst).length := by simpa using hf
          have hs' : j < (rest.map Prod.snd).length := by simpa using hs
          have hmem : (rest.map Prod.fst).get ⟨j, hf'⟩ ∈ rest.map Prod.fst :=
            (rest.map Prod.fst).get_mem _ _
          have hne : ¬ k2 = (rest.map Prod.fst).get ⟨j, hf'⟩ :=
            fun he => hk2 (he ▸ hmem)
          simp only [List.map_cons, List.get_cons_succ, lookupNat, hne, if_false]
          exact ih hnd' j hj' hf' hs'

/-- In the mdsidenote numbering map, the j-th first-appearing goldmark index
reads back sidenote number j+1. -/
theorem sidenote_lookup_rank (idxs : List Nat) (j : Nat)
    (h : j < (firstAppear idxs).length) :
    lookupNat (sidenoteAssign idxs [] 1) ((firstAppear idxs).get ⟨j, h⟩) =
      some (j + 1) := by
  obtain ⟨hf, hs⟩ := sidenoteAssign_main idxs [] 1 rfl
  have hf' : (sidenoteAssign idxs [] 1).map Prod.fst = firstAppear idxs := by
    simpa [firstAppear] using hf
  have hs' : (sidenoteAssign idxs [] 1).map Prod.snd =
      List.range' 1 (firstAppear idxs).length := by
    simpa [firstAppear] using hs
  have hnd : ((sidenoteAssign idxs [] 1).map Prod.fst).Nodup := by
    rw [hf']
    exact firstAppear_nodup idxs
  have hlen : (sidenoteAssign idxs [] 1).length = (firstAppear idxs).length := by
    have := congrArg List.length hf'
    simpa using this
  have hj : j < (sidenoteAssign idxs [] 1).length := by
    rw [hlen]
    exact h
  have hfl : j < ((sidenoteAssign idxs [] 1).map Prod.fst).length := by
    rw [hf']
    exact h
  have hsl : j < ((sidenoteAssign idxs [] 1).map Prod.snd).length := by
    rw [hs']
    simpa using h
  have hmain := lookupNat_rank (sidenoteAssign idxs [] 1) hnd j hj hfl hsl
  have hkey := List.get_of_eq hf' ⟨j, hfl⟩
  have hsnd : ((sidenoteAssign idxs [] 1).map Prod.snd).get ⟨j, hsl⟩ = 1 + 1 * j := by
    have hval := List.get_of_eq hs' ⟨j, hsl⟩
    rw [hval, List.get_eq_getElem, List.getElem_range']
  exact (congrArg (lookupNat (sidenoteAssign idxs [] 1)) hkey.symm).trans
    (hmain.trans (congrArg some (hsnd.trans (by omega))))

/-- C7 (amended/corrected): the footnote→sidenote direction is positional —
in mdsidenote's numbering map the j-th first-appearing goldmark index reads
back sidenote number j+1, independent of any source label — but the
sidenote→footnote direction is not: mdfootnote's output loop emits
`[^N]` with `N` the number parsed from the source `sidenote-N` label
(re-rendered in canonical decimal), not the position of first
appearance. -/
theorem claim_c7_positional_identity (idxs : List Nat) (j : Nat)
    (h : j < (firstAppear idxs).length)
    (conv : List Char → List Char) (content : List Char) (sn : snMatch)
    (rest : List snMatch) (lastEnd : Nat) (fns : List (List Char))
    (body : List Char) (fnsOut : List (List Char))
    (hloop : mdfootnoteLoop conv content (sn :: rest) lastEnd fns =
      some (body, fnsOut)) :
    lookupNat (sidenoteAssign idxs [] 1) ((firstAppear idxs).get ⟨j, h⟩) =
        some (j + 1) ∧
      ∃ tailBody,
        body = (content.take sn.start).drop lastEnd ++
          ('[' :: '^' :: natChars (digitsToNat sn.digits) ++ [']']) ++ tailBody := by
  refine ⟨sidenote_lookup_rank idxs j h, ?_⟩
  cases hsf : setFootnote fns (digitsToNat sn.digits) (snMdContent conv sn) with
  | none =>
      rw [mdfootnoteLoop, hsf] at hloop
      cases hloop
  | some fns2 =>
      cases hrec : mdfootnoteLoop conv content rest sn.stop fns2 with
      | none =>
          rw [mdfootnoteLoop, hsf] at hloop
          simp only [hrec] at hloop
          cases hloop
      | some p =>
          obtain ⟨tb, fo⟩ := p
          rw [mdfootnoteLoop, hsf] at hloop
          simp only [hrec] at hloop
          injection hloop with h1
          exact ⟨tb, (congrArg Prod.fst h1).symm⟩

set_option maxRecDepth 8192 in
theorem claim_c7_positional_identity_witness :
    lookupNat (sidenoteAssign [3, 1, 3] [] 1) ((firstAppear [3, 1, 3]).get ⟨1, by decide⟩)
        = some 2 ∧
      ∃ tailBody,
        chars "B[^2]" =
          (((chars "B" ++ sidenoteHTMLToken 2 (chars "z") ++ chars "\n").take 1).drop 0)
            ++ ('[' :: '^' :: natChars (digitsToNat (chars "2")) ++ [']']) ++ tailBody :=
  claim_c7_positional_identity [3, 1, 3] 1 (by decide) id
    (chars "B" ++ sidenoteHTMLToken 2 (chars "z") ++ chars "\n")
    ⟨chars "2", chars "<span class=\"hidden\">(</span>z<span class=\"hidden\">)</span>",
      1, 225⟩ [] 0 [] (chars "B[^2]") [[], chars "z"] (by decide)

/-! ## findLinkExtent (mdref/main.go lines 306-363)

The link node is the external parser's: what the function reads from it is
its child list, each child being a text node with a source segment
`[start, stop)` (`some (start, stop)`) or a non-text node (`none`). The
forward scan from the last text child's stop is embedded with fuel
`source.length + 1` (the cursor only moves right and stops at the end). -/

/-- The scan loop (lines 341-360): from `end := textEnd`, `(` opens a depth,
`)` closes one and stops past itself at depth 0, `]` stops past itself when
strictly beyond `textEnd`, a newline stops without consuming, and the end of
the source stops the loop. -/
def extentScanGo : Nat → List Char → Nat → Nat → Nat → Nat
  | 0, _, e, _, _ => e
  | fuel + 1, source, e, textEnd, depth =>
      match source.get? e with
      | none => e
      | some ch =>
          if ch = '(' then extentScanGo fuel source (e + 1) textEnd (depth + 1)
          else if ch = ')' then
            let d2 := if 0 < depth then depth - 1 else depth
            if d2 = 0 then e + 1 else extentScanGo fuel source (e + 1) textEnd d2
          else if ch = ']' ∧ textEnd < e then e + 1
          else if ch = '\n' then e
          else extentScanGo fuel source (e + 1) textEnd depth

/-- Embedding of `findLinkExtent` (lines 306-363). `none` is the `(-1, -1)`
"leave unresolved" result: no children, a non-text first or last child, a
first text segment starting at 0, or a byte other than `[` right before it.
(The `source[start]` read is in range for parser-produced segments; the
out-of-range case is also mapped to `none` here.) -/
def findLinkExtent (children : List (Option (Nat × Nat))) (source : List Char) :
    Option (Nat × Nat) :=
  match children.head?, children.getLast? with
  | some (some (fs, _)), some (some (_, textEnd)) =>
      if fs = 0 then none
      else
        match source.get? (fs - 1) with
        | some c =>
            if c = '[' then
              some (fs - 1, extentScanGo (source.length + 1) source textEnd textEnd 0)
            else none
        | none => none
  | _, _ => none

/-- The forward scan never crosses a newline: every position from its start
up to (but excluding) the returned end holds a non-newline byte. -/
theorem extentScanGo_no_newline (source : List Char) :
    ∀ (fuel e textEnd depth p : Nat), e ≤ p →
      p < extentScanGo fuel source e textEnd depth →
      source.get? p ≠ some '\n' := by
  intro fuel
  induction fuel with
  | zero =>
      intro e te d p hep hlt
      rw [extentScanGo] at hlt
      omega
  | succ fuel ih =>
      intro e te d p hep hlt
      rw [extentScanGo] at hlt
      cases hc : source.get? e with
      | none =>
          simp only [hc] at hlt
          omega
      | some ch =>
          simp only [hc] at hlt
          by_cases h1 : ch = '('
          · rw [if_pos h1] at hlt
            rcases Nat.eq_or_lt_of_le hep with rfl | hgt
            · rw [hc]
              simp [h1]
            · exact ih (e + 1) te (d + 1) p hgt hlt
          · rw [if_neg h1] at hlt
            by_cases h2 : ch = ')'
            · rw [if_pos h2] at hlt
              by_cases h3 : (if 0 < d then d - 1 else d) = 0
              · rw [if_pos h3] at hlt
                have hpe : p = e := by omega
                rw [hpe, hc]
                simp [h2]
              · rw [if_neg h3] at hlt
                rcases Nat.eq_or_lt_of_le hep with rfl | hgt
                · rw [hc]
                  simp [h2]
                · exact ih (e + 1) te _ p hgt hlt
            · rw [if_neg h2] at hlt
              by_cases h4 : ch = ']' ∧ te < e
              · rw [if_pos h4] at hlt
                have hpe : p = e := by omega
                rw [hpe, hc]
                simp [h4.1]
              · rw [if_neg h4] at hlt
                by_cases h5 : ch = '\n'
                · rw [if_pos h5] at hlt
                  omega
                · rw [if_neg h5] at hlt
                  rcases Nat.eq_or_lt_of_le hep with rfl | hgt
                  · rw [hc]
                    simp [h5]
                  · exact ih (e + 1) te d p hgt hlt

/-- C8 counterexample: over `[a\nb](u)` with text children `a` and `b`,
resolution succeeds with span `[0, 8)`, which contains the newline at
offset 2 — the resolved span is not newline-free (only the scanned tail
beyond the link text is). -/
theorem claim_c8_counterexample :
    findLinkExtent [some (1, 2), some (3, 4)] (chars "[a\nb](u)") = some (0, 8) ∧
      '\n' ∈ (chars "[a\nb](u)").take 8 := by
  refine ⟨by decide, by decide⟩

/-- C8 (amended): on success the start is one byte before the first text
child's segment start and holds `[`, and no newline occurs from the last
text child's segment stop up to the span end (the scan never crosses a
newline); resolution fails whenever the byte before the first text child is
not `[`. The region between the two text children — the link text itself —
may contain newlines, so the full span need not be newline-free. -/
theorem claim_c8_link_extent (children : List (Option (Nat × Nat)))
    (source : List Char) (s e fs ss ls te : Nat)
    (hres : findLinkExtent children source = some (s, e))
    (hfirst : children.head? = some (some (fs, ss)))
    (hlast : children.getLast? = some (some (ls, te))) :
    (s = fs - 1 ∧ 1 ≤ fs ∧ source.get? s = some '[' ∧
      ∀ p, te ≤ p → p < e → source.get? p ≠ some '\n') ∧
      (∀ (children2 : List (Option (Nat × Nat))) (source2 : List Char)
        (fs2 ss2 : Nat), children2.head? = some (some (fs2, ss2)) →
        (fs2 = 0 ∨ ∀ c, source2.get? (fs2 - 1) = some c → c ≠ '[') →
        findLinkExtent children2 source2 = none) := by
  constructor
  · rw [findLinkExtent, hfirst, hlast] at hres
    have hres2 : (if fs = 0 then none
        else match source.get? (fs - 1) with
          | some c =>
              if c = '[' then
                some (fs - 1, extentScanGo (source.length + 1) source te te 0)
              else none
          | none => none) = some (s, e) := hres
    by_cases h0 : fs = 0
    · rw [if_pos h0] at hres2
      cases hres2
    · rw [if_neg h0] at hres2
      cases hg : source.get? (fs - 1) with
      | none =>
          simp only [hg] at hres2
          cases hres2
      | some c =>
          simp only [hg] at hres2
          by_cases hc : c = '['
          · rw [if_pos hc] at hres2
            injection hres2 with h1
            have hs : s = fs - 1 := (congrArg Prod.fst h1).symm
            have he : e = extentScanGo (source.length + 1) source te te 0 :=
              (congrArg Prod.snd h1).symm
            subst hs
            refine ⟨rfl, by omega, by rw [hg, hc], ?_⟩
            intro p hp1 hp2
            exact extentScanGo_no_newline source (source.length + 1) te te 0 p hp1
              (he ▸ hp2)
          · rw [if_neg hc] at hres2
            cases hres2
  · intro children2 source2 fs2 ss2 hh hbad
    rw [findLinkExtent, hh]
    cases hl2 : children2.getLast? with
    | none =>
        have hnil : children2 = [] := List.getLast?_eq_none_iff.mp hl2
        rw [hnil] at hh
    | some lastc =>
        cases lastc with
        | none => rfl
        | some q =>
            obtain ⟨lq, tq⟩ := q
            show (if fs2 = 0 then none
              else match source2.get? (fs2 - 1) with
                | some c =>
                    if c = '[' then
                      some (fs2 - 1, extentScanGo (source2.length + 1) source2 tq tq 0)
                    else none
                | none => none) = (none : Option (Nat × Nat))
            rcases hbad with h0 | hnc
            · exact if_pos h0
            · by_cases h0 : fs2 = 0
              · exact if_pos h0
              · rw [if_neg h0]
                cases hg2 : source2.get? (fs2 - 1) with
                | none => rfl
                | some c2 =>
                    exact if_neg (hnc c2 hg2)

theorem claim_c8_link_extent_witness :
    (chars "[a](u)").get? 0 = some '[' ∧
      findLinkExtent [some (3, 4)] (chars "xa](u)") = none :=
  ⟨(claim_c8_link_extent [some (1, 2)] (chars "[a](u)") 0 6 1 2 1 2
      (by decide) (by decide) (by decide)).1.2.2.1,
    (claim_c8_link_extent [some (1, 2)] (chars "[a](u)") 0 6 1 2 1 2
      (by decide) (by decide) (by decide)).2 [some (3, 4)] (chars "xa](u)") 3 4
      (by decide) (Or.inr (by decide))⟩

end MdTools
